import Mathlib

/-!
Verification of the GDB remote-serial-protocol stub in `vita3k/gdbstub/src/gdb.cpp`.

The C++ source is shallowly embedded below.  Byte strings on the wire are
modelled as `List Char` (each element standing for one byte, value `< 256`);
machine integers are modelled as `Nat` (or `Int` for signed quantities) with
explicit reductions modulo `2 ^ 32` / `2 ^ 64` where the C++ types wrap.
Functions from external subsystems (libc, the memory subsystem, the CPU and
the kernel thread table) that are not part of the repository are modelled
from the specification, and each such definition says so in its doc comment.
-/

namespace Gdb

/-- Convenience: the byte list of a string literal. -/
def estr (s : String) : List Char := s.data

/-! ## Hex and checksum codec (gdb.cpp lines 91-115) -/

/-- One lowercase hex digit, as produced by `fmt`'s `x` presentation. -/
def hexChar (n : Nat) : Char :=
  if n < 10 then Char.ofNat (48 + n) else Char.ofNat (87 + n)

/-- Digits of `n` in base 16, most significant first, prepended to `acc`.
Together with `hexRepr` this models `fmt`'s hex formatting of an unsigned
value (at least one digit, no leading zeros).  The first argument is
structural-recursion fuel; any fuel `≥ n` computes the digits in full
(`n` has at most `n` digits for `n ≥ 1`). -/
def hexCore : Nat → Nat → List Char → List Char
  | 0, _, acc => acc
  | fuel + 1, n, acc =>
    if n = 0 then acc else hexCore fuel (n / 16) (hexChar (n % 16) :: acc)

/-- Minimal lowercase hex representation of `n` (`"0"` for zero). -/
def hexRepr (n : Nat) : List Char :=
  if n = 0 then ['0'] else hexCore n n []

/-- Left-pad with `'0'` to width `w`: models the `{:0>w x}` / `{:0w x}`
format specifications used by the stub. -/
def padLeft (w : Nat) (l : List Char) : List Char :=
  List.replicate (w - l.length) '0' ++ l

/-- `to_hex` (gdb.cpp line 95): `fmt::format("{:0>8x}", value)` for a
`uint32_t` value. -/
def to_hex (v : Nat) : List Char := padLeft 8 (hexRepr v)

/-- `to_hex` for `SceUID` (gdb.cpp line 99): `fmt` prints a negative signed
value as a minus sign followed by the hex digits of its magnitude, then the
`0>8` specification pads with `'0'` fill to width 8. -/
def to_hexI (v : Int) : List Char :=
  if v < 0 then padLeft 8 ('-' :: hexRepr (-v).toNat) else padLeft 8 (hexRepr v.toNat)

/-- Value of one hex digit character, as accepted by `strtoul` base 16. -/
def hexVal? (c : Char) : Option Nat :=
  if '0' ≤ c ∧ c ≤ '9' then some (c.toNat - 48)
  else if 'a' ≤ c ∧ c ≤ 'f' then some (c.toNat - 87)
  else if 'A' ≤ c ∧ c ≤ 'F' then some (c.toNat - 55)
  else none

/-- Accumulate the maximal leading run of hex digits, stopping at the first
non-digit: the core of `strtoul(s, nullptr, 16)`. -/
def parseHexDigits : List Char → Nat → Nat
  | [], acc => acc
  | c :: rest, acc =>
    match hexVal? c with
    | some d => parseHexDigits rest (acc * 16 + d)
    | none => acc

/-- `parse_hex` (gdb.cpp line 103): `static_cast<uint32_t>(strtoul(s, nullptr, 16))`.
Modelled from the spec for the libc part: `strtoul`'s digit-parsing core
("permissive, ignores trailing non-hex"); the leading-whitespace, sign and
`0x`-prefix handling of `strtoul` never arises for the inputs this server
feeds it, and its clamp-to-`ULONG_MAX` overflow behavior would need a
17-hex-digit input.  The `uint32_t` cast is the reduction mod `2 ^ 32`. -/
def parse_hex (s : List Char) : Nat := parseHexDigits s 0 % 2 ^ 32

/-- Value of a buffer byte read through C++ `char`, which is signed on the
platforms this code targets: bytes `128..255` read as negative. -/
def scharVal (c : Char) : Int :=
  if c.toNat % 256 < 128 then ((c.toNat % 256 : Nat) : Int) else ((c.toNat % 256 : Nat) : Int) - 256

/-- One step of `make_checksum`'s loop: `sum += data[a]` where `sum` is a
`size_t`, so the signed `char` is converted to `uint64` and the addition
wraps mod `2 ^ 64`. -/
def csumStep (s : Nat) (c : Char) : Nat := (((s : Int) + scharVal c) % 2 ^ 64).toNat

/-- `make_checksum` (gdb.cpp lines 107-115): sum the bytes into a `size_t`
and return `sum % 256` (the `uint8_t` cast of a value already `< 256` is the
identity). -/
def make_checksum (data : List Char) : Nat := (data.foldl csumStep 0) % 256

/-- `byteswap32`, stated as in the spec: the four bytes of a 32-bit value in
reverse order. -/
def byteswap32 (v : Nat) : Nat :=
  v % 256 * 2 ^ 24 + v / 2 ^ 8 % 256 * 2 ^ 16 + v / 2 ^ 16 % 256 * 2 ^ 8 + v / 2 ^ 24 % 256

/-- `htonl`.  Modelled from the spec: on the little-endian hosts this
emulator targets, `htonl` is the 32-bit byte swap. -/
def htonl (v : Nat) : Nat := byteswap32 (v % 2 ^ 32)

/-- `be_hex` (gdb.cpp line 91): `fmt::format("{:0>8x}", htonl(value))`. -/
def be_hex (v : Nat) : List Char := padLeft 8 (hexRepr (htonl v))

/-! ## Codec lemmas -/

theorem hexCore_ne (fuel n : Nat) (acc : List Char) (h : n ≠ 0) :
    hexCore (fuel + 1) n acc = hexCore fuel (n / 16) (hexChar (n % 16) :: acc) := by
  simp [hexCore, h]

theorem hexCore_zero (fuel : Nat) (acc : List Char) : hexCore fuel 0 acc = acc := by
  cases fuel <;> simp [hexCore]

theorem parseHexDigits_cons (c : Char) (rest : List Char) (acc d : Nat)
    (h : hexVal? c = some d) :
    parseHexDigits (c :: rest) acc = parseHexDigits rest (acc * 16 + d) := by
  simp [parseHexDigits, h]

theorem csumStep_mod (s : Nat) (c : Char) : csumStep s c % 256 = (s + c.toNat) % 256 := by
  unfold csumStep scharVal
  have h64 : (2 : Int) ^ 64 = 18446744073709551616 := by norm_num
  rw [h64]
  split
  · have h1 := Int.emod_add_ediv ((s : Int) + ((c.toNat % 256 : Nat) : Int)) 18446744073709551616
    have h2 := Int.emod_nonneg ((s : Int) + ((c.toNat % 256 : Nat) : Int))
      (by norm_num : (18446744073709551616 : Int) ≠ 0)
    have h3 := Int.emod_lt_of_pos ((s : Int) + ((c.toNat % 256 : Nat) : Int))
      (by norm_num : (0 : Int) < 18446744073709551616)
    omega
  · have h1 := Int.emod_add_ediv ((s : Int) + (((c.toNat % 256 : Nat) : Int) - 256))
      18446744073709551616
    have h2 := Int.emod_nonneg ((s : Int) + (((c.toNat % 256 : Nat) : Int) - 256))
      (by norm_num : (18446744073709551616 : Int) ≠ 0)
    have h3 := Int.emod_lt_of_pos ((s : Int) + (((c.toNat % 256 : Nat) : Int) - 256))
      (by norm_num : (0 : Int) < 18446744073709551616)
    omega

theorem foldl_csum_mod (l : List Char) : ∀ s : Nat,
    (l.foldl csumStep s) % 256 = (s + (l.map Char.toNat).sum) % 256 := by
  induction l with
  | nil => intro s; simp
  | cons c rest ih =>
    intro s
    have h1 := ih (csumStep s c)
    have h2 := csumStep_mod s c
    simp only [List.foldl_cons, List.map_cons, List.sum_cons]
    omega

theorem hexVal_hexChar : ∀ m < 16, hexVal? (hexChar m) = some m := by decide

theorem hexCore_append (fuel : Nat) :
    ∀ (n : Nat) (acc : List Char), hexCore fuel n acc = hexCore fuel n [] ++ acc := by
  induction fuel with
  | zero => intro n acc; simp [hexCore]
  | succ f ih =>
    intro n acc
    by_cases h : n = 0
    · simp [h, hexCore_zero]
    · rw [hexCore_ne f n acc h, hexCore_ne f n [] h,
        ih (n / 16) (hexChar (n % 16) :: acc), ih (n / 16) [hexChar (n % 16)]]
      simp

theorem hexCore_digits (fuel : Nat) :
    ∀ (n : Nat), ∀ c ∈ hexCore fuel n [], (hexVal? c).isSome := by
  induction fuel with
  | zero => intro n c hc; simp [hexCore] at hc
  | succ f ih =>
    intro n c hc
    by_cases h : n = 0
    · simp [h, hexCore_zero] at hc
    · rw [hexCore_ne f n [] h, hexCore_append] at hc
      rcases List.mem_append.mp hc with h1 | h1
      · exact ih (n / 16) c h1
      · have : c = hexChar (n % 16) := by simpa using h1
        rw [this, hexVal_hexChar (n % 16) (Nat.mod_lt _ (by norm_num))]
        rfl

theorem parseHexDigits_append (l1 : List Char) (h : ∀ c ∈ l1, (hexVal? c).isSome) :
    ∀ (l2 : List Char) (acc : Nat),
    parseHexDigits (l1 ++ l2) acc = parseHexDigits l2 (parseHexDigits l1 acc) := by
  induction l1 with
  | nil => intro l2 acc; rfl
  | cons c rest ih =>
    intro l2 acc
    have hc : (hexVal? c).isSome := h c (List.mem_cons_self c rest)
    rcases Option.isSome_iff_exists.mp hc with ⟨d, hd⟩
    rw [List.cons_append, parseHexDigits_cons c (rest ++ l2) acc d hd,
      parseHexDigits_cons c rest acc d hd]
    exact ih (fun x hx => h x (List.mem_cons_of_mem c hx)) l2 (acc * 16 + d)

theorem parse_hexCore (fuel : Nat) :
    ∀ (n : Nat), n ≠ 0 → n ≤ fuel → parseHexDigits (hexCore fuel n []) 0 = n := by
  induction fuel with
  | zero => intro n h hle; omega
  | succ f ih =>
    intro n h hle
    have hdig := hexVal_hexChar (n % 16) (Nat.mod_lt _ (by norm_num))
    rw [hexCore_ne f n [] h, hexCore_append]
    by_cases h16 : n / 16 = 0
    · have hn : n < 16 := by omega
      rw [h16, hexCore_zero, List.nil_append,
        parseHexDigits_cons _ [] 0 (n % 16) hdig]
      simp [parseHexDigits]
      omega
    · have hlt : n / 16 < n := Nat.div_lt_self (Nat.pos_of_ne_zero h) (by norm_num)
      rw [parseHexDigits_append _ (hexCore_digits f (n / 16)), ih (n / 16) h16 (by omega),
        parseHexDigits_cons _ [] (n / 16) (n % 16) hdig]
      simp [parseHexDigits]
      omega

theorem parse_hexRepr (n : Nat) : parseHexDigits (hexRepr n) 0 = n := by
  by_cases h : n = 0
  · simp [hexRepr, h, parseHexDigits, hexVal?]
  · simpa [hexRepr, h] using parse_hexCore n n h (le_refl n)

theorem parse_zeros (j : Nat) : ∀ l2 : List Char,
    parseHexDigits (List.replicate j '0' ++ l2) 0 = parseHexDigits l2 0 := by
  induction j with
  | zero => intro l2; rfl
  | succ k ih =>
    intro l2
    have h0 : hexVal? '0' = some 0 := by decide
    rw [List.replicate_succ, List.cons_append,
      parseHexDigits_cons _ _ 0 0 h0]
    simpa using ih l2

theorem parse_padLeft (w n : Nat) : parseHexDigits (padLeft w (hexRepr n)) 0 = n := by
  rw [padLeft, parse_zeros, parse_hexRepr]

theorem hexCore_length_le (k : Nat) :
    ∀ (fuel n : Nat), n < 16 ^ k → (hexCore fuel n []).length ≤ k := by
  induction k with
  | zero =>
    intro fuel n hn
    norm_num at hn
    simp [hn, hexCore_zero]
  | succ k ih =>
    intro fuel n hn
    by_cases h : n = 0
    · simp [h, hexCore_zero]
    · cases fuel with
      | zero => simp [hexCore]
      | succ f =>
        rw [hexCore_ne f n [] h, hexCore_append]
        have hdiv : n / 16 < 16 ^ k := by
          rw [Nat.div_lt_iff_lt_mul (by norm_num : 0 < 16), ← pow_succ]
          exact hn
        have := ih f (n / 16) hdiv
        simp only [List.length_append, List.length_cons, List.length_nil]
        omega

theorem hexRepr_length_le (n : Nat) (h : n < 2 ^ 32) : (hexRepr n).length ≤ 8 := by
  by_cases h0 : n = 0
  · simp [hexRepr, h0]
  · rw [hexRepr]
    simp only [h0, if_false]
    exact hexCore_length_le 8 n n (by norm_num at h ⊢; omega)

theorem padLeft_length (w : Nat) (l : List Char) (h : l.length ≤ w) :
    (padLeft w l).length = w := by
  simp [padLeft]
  omega

theorem be_hex_length (v : Nat) : (be_hex v).length = 8 := by
  have h32 : htonl v < 2 ^ 32 := by
    unfold htonl byteswap32
    have h1 : v % 2 ^ 32 % 256 < 256 := Nat.mod_lt _ (by norm_num)
    have h2 : v % 2 ^ 32 / 2 ^ 8 % 256 < 256 := Nat.mod_lt _ (by norm_num)
    have h3 : v % 2 ^ 32 / 2 ^ 16 % 256 < 256 := Nat.mod_lt _ (by norm_num)
    have h4 : v % 2 ^ 32 / 2 ^ 24 % 256 < 256 := Nat.mod_lt _ (by norm_num)
    omega
  exact padLeft_length 8 _ (hexRepr_length_le _ h32)

/-! ## Claim C8 -/

/-- C8: for every byte string `b`, `make_checksum b` equals the sum of the
bytes of `b` as unsigned values, modulo 256.  (The C++ loop reads the bytes
through signed `char` and accumulates into a `size_t`; since each signed
value is congruent to the unsigned byte modulo 256 and `256 ∣ 2 ^ 64`, the
result is the unsigned sum mod 256.) -/
theorem checksum_is_unsigned_sum_mod_256 (b : List Char) :
    make_checksum b = (b.map Char.toNat).sum % 256 := by
  unfold make_checksum
  simpa using foldl_csum_mod b 0

/-! ## Claim C9 -/

/-- C9: for every 32-bit value `v`, `parse_hex (to_hex v) = v`, and
`be_hex v` is exactly `to_hex (byteswap32 v)`: the big-endian register
encoding is the plain 8-digit hex encoding of the byte-swapped value. -/
theorem hex_codec_roundtrip (v : Nat) (h : v < 2 ^ 32) :
    parse_hex (to_hex v) = v ∧ be_hex v = to_hex (byteswap32 v) := by
  constructor
  · rw [parse_hex, to_hex, parse_padLeft, Nat.mod_eq_of_lt h]
  · rw [be_hex, to_hex, htonl, Nat.mod_eq_of_lt h]

/-- Witness for C9 at `v = 0xdeadbeef`. -/
theorem hex_codec_roundtrip_witness :
    parse_hex (to_hex 0xdeadbeef) = 0xdeadbeef ∧
      be_hex 0xdeadbeef = to_hex (byteswap32 0xdeadbeef) :=
  hex_codec_roundtrip 0xdeadbeef (by norm_num)

/-! ## Packet framing (gdb.cpp lines 63-161) -/

/-- `PacketCommand` (gdb.cpp lines 63-77).  The `content_start` /
`checksum_start` pointers are modelled by the extracted `content` slice and
the parsed `checksum` byte. -/
structure PacketCommand where
  data : List Char := []
  length : Int := -1
  begin_index : Int := -1
  end_index : Int := -1
  content_length : Int := -1
  content : List Char := []
  checksum : Nat := 0
  is_valid : Bool := false

/-- The scan loop of `parse_command` (gdb.cpp lines 126-129): remember the
index of the LAST `'#'` in the buffer (`-1` if there is none).  `i` is the
running index, `e` the accumulator. -/
def lastHashIdx : List Char → Nat → Int → Int
  | [], _, e => e
  | c :: rest, i, e => lastHashIdx rest (i + 1) (if c = '#' then (i : Int) else e)

/-- `parse_command` (gdb.cpp lines 117-147).  `begin_index` is 1 when the
buffer has more than one byte; `end_index` is the last `'#'`; the frame is
structurally valid when `begin_index < end_index` and two checksum bytes
follow, and fully valid when additionally the checksum matches. -/
def parse_command (data : List Char) : PacketCommand :=
  let length : Int := data.length
  let begin_index : Int := if 1 < length then 1 else -1
  let end_index : Int := lastHashIdx data 0 (-1)
  if begin_index ≠ -1 ∧ end_index ≠ -1 ∧ begin_index < end_index ∧ end_index + 2 < length then
    let content := (data.drop begin_index.toNat).take (end_index - begin_index).toNat
    let cc := (data.drop (end_index + 1).toNat).take 2
    let cksum := parse_hex cc % 256
    { data := data, length := length, begin_index := begin_index, end_index := end_index,
      content_length := end_index - begin_index, content := content, checksum := cksum,
      is_valid := make_checksum content == cksum }
  else
    { data := data, length := length, begin_index := begin_index, end_index := end_index,
      is_valid := false }

/-- `server_reply` (gdb.cpp lines 149-153): the on-wire framing
`fmt::format("${}#{:0>2x}", body, make_checksum(body))` of a reply body.
(Reply bodies produced by this server never contain a NUL byte, so the
`strlen`-based overload at line 155 transmits the whole body.) -/
def frameBytes (body : List Char) : List Char :=
  '$' :: body ++ '#' :: padLeft 2 (hexRepr (make_checksum body))

/-- The checksum as the spec words it: sum of unsigned bytes, mod 256. -/
def specChecksum (b : List Char) : Nat := (b.map Char.toNat).sum % 256

/-- The wire string of claim C3, built exactly from the claim's words:
`"$" + b + "#" + hex2(checksum(b))`. -/
def claimWire (b : List Char) : List Char :=
  '$' :: b ++ '#' :: padLeft 2 (hexRepr (specChecksum b))

theorem make_checksum_eq_spec (b : List Char) : make_checksum b = specChecksum b := by
  unfold make_checksum specChecksum
  simpa using foldl_csum_mod b 0

/-! ### Framing lemmas -/

theorem lastHashIdx_no_hash (l : List Char) (h : '#' ∉ l) :
    ∀ (i : Nat) (e : Int), lastHashIdx l i e = e := by
  induction l with
  | nil => intro i e; rfl
  | cons c rest ih =>
    intro i e
    have hc : c ≠ '#' := fun hc => h (hc ▸ List.mem_cons_self c rest)
    have hr : '#' ∉ rest := fun hr => h (List.mem_cons_of_mem c hr)
    simp only [lastHashIdx, if_neg hc]
    exact ih hr (i + 1) e

theorem lastHashIdx_append (x y : List Char) :
    ∀ (i : Nat) (e : Int), lastHashIdx (x ++ y) i e = lastHashIdx y (i + x.length) (lastHashIdx x i e) := by
  induction x with
  | nil => intro i e; simp [lastHashIdx]
  | cons c rest ih =>
    intro i e
    simp only [List.cons_append, lastHashIdx, List.length_cons, List.append_eq]
    rw [ih (i + 1)]
    congr 1
    omega

theorem lastHashIdx_unique (x y : List Char) (hx : '#' ∉ x) (hy : '#' ∉ y) :
    lastHashIdx (x ++ '#' :: y) 0 (-1) = (x.length : Int) := by
  rw [lastHashIdx_append, lastHashIdx_no_hash x hx]
  simp only [lastHashIdx, if_pos rfl]
  rw [lastHashIdx_no_hash y hy]
  simp

theorem not_hash_of_hex (w n : Nat) : ∀ c ∈ padLeft w (hexRepr n), c ≠ '#' := by
  intro c hc
  rcases List.mem_append.mp hc with h1 | h1
  · have : c = '0' := List.eq_of_mem_replicate h1
    simp [this]
  · unfold hexRepr at h1
    by_cases h0 : n = 0
    · simp [h0] at h1
      simp [h1]
    · rw [if_neg h0] at h1
      have := hexCore_digits n n c h1
      intro hcc
      rw [hcc] at this
      simp [hexVal?] at this

theorem hexRepr_length_le_pow (k n : Nat) (hk : 0 < k) (h : n < 16 ^ k) :
    (hexRepr n).length ≤ k := by
  by_cases h0 : n = 0
  · simp [hexRepr, h0]
    omega
  · rw [hexRepr, if_neg h0]
    exact hexCore_length_le k n n h

theorem cc_length (b : List Char) : (padLeft 2 (hexRepr (specChecksum b))).length = 2 := by
  apply padLeft_length
  apply hexRepr_length_le_pow 2 _ (by norm_num)
  have h16 : (16 : Nat) ^ 2 = 256 := by norm_num
  have : specChecksum b < 256 := by unfold specChecksum; omega
  omega

/-! ## Claim C3 -/

/-- C3 counterexample: for the empty body `b = []`, the wire string
`"$#00"` does NOT parse as a valid frame — `parse_command` requires
`end_index > begin_index`, which fails when the body is empty. -/
theorem framing_roundtrip_fails_on_empty_body :
    (parse_command (claimWire [])).is_valid = false := by decide

/-- C3 (amended to non-empty bodies): for every non-empty byte string `b`
containing neither `'$'` nor `'#'`, parsing
`"$" + b + "#" + hex2(checksum b)` yields a valid frame whose body is `b`,
and re-framing `b` for output produces exactly the same on-wire bytes. -/
theorem framing_roundtrip (b : List Char) (hne : b ≠ [])
    (hd : '$' ∉ b) (hh : '#' ∉ b) :
    (parse_command (claimWire b)).is_valid = true ∧
      (parse_command (claimWire b)).content = b ∧
      frameBytes b = claimWire b := by
  have hccl : (padLeft 2 (hexRepr (specChecksum b))).length = 2 := cc_length b
  have hccnh : '#' ∉ padLeft 2 (hexRepr (specChecksum b)) :=
    fun hmem => not_hash_of_hex 2 _ '#' hmem rfl
  have hlen : (claimWire b).length = b.length + 4 := by
    simp [claimWire, hccl]
  have hend : lastHashIdx (claimWire b) 0 (-1) = ((b.length + 1 : Nat) : Int) := by
    have hsplit : claimWire b = ('$' :: b) ++ '#' :: padLeft 2 (hexRepr (specChecksum b)) := by
      simp [claimWire]
    have hnx : '#' ∉ ('$' :: b) := by
      intro hmem
      rcases List.mem_cons.mp hmem with h1 | h1
      · exact absurd h1.symm (by decide)
      · exact hh h1
    rw [hsplit, lastHashIdx_unique _ _ hnx hccnh]
    simp
  have hbpos : 0 < b.length := List.length_pos.mpr hne
  have hcswlt : specChecksum b < 256 := by unfold specChecksum; omega
  have hcksum : parse_hex (padLeft 2 (hexRepr (specChecksum b))) % 256 = specChecksum b := by
    unfold parse_hex
    rw [parse_padLeft]
    have h32 : specChecksum b < 2 ^ 32 := by
      have : (2 : Nat) ^ 32 = 4294967296 := by norm_num
      omega
    rw [Nat.mod_eq_of_lt h32, Nat.mod_eq_of_lt hcswlt]
  have hcond : ((if (1 : Int) < ((b.length + 4 : Nat) : Int) then (1 : Int) else -1)) = 1 := by
    rw [if_pos]
    push_cast
    omega
  have hdrop1 : (claimWire b).drop 1
      = b ++ '#' :: padLeft 2 (hexRepr (specChecksum b)) := by
    simp [claimWire]
  have htoNat : (((b.length + 1 : Nat) : Int) - 1).toNat = b.length := by omega
  have hcontent : (b ++ '#' :: padLeft 2 (hexRepr (specChecksum b))).take b.length = b := by
    rw [List.take_append_of_le_length (le_refl _), List.take_length]
  have htoNat2 : (((b.length + 1 : Nat) : Int) + 1).toNat = b.length + 2 := by omega
  have hdrop2 : (claimWire b).drop (b.length + 2)
      = padLeft 2 (hexRepr (specChecksum b)) := by
    have hassoc : claimWire b
        = ('$' :: b ++ ['#']) ++ padLeft 2 (hexRepr (specChecksum b)) := by
      simp [claimWire]
    have hl1 : ('$' :: b ++ ['#']).length = b.length + 2 := by simp
    rw [hassoc, ← hl1, List.drop_left]
  have htake2 : (padLeft 2 (hexRepr (specChecksum b))).take 2
      = padLeft 2 (hexRepr (specChecksum b)) := by
    apply List.take_of_length_le
    rw [hccl]
  have hcond4 : ((1 : Int) ≠ -1 ∧ ((b.length + 1 : Nat) : Int) ≠ -1 ∧
      (1 : Int) < ((b.length + 1 : Nat) : Int) ∧
      ((b.length + 1 : Nat) : Int) + 2 < ((b.length + 4 : Nat) : Int)) := by
    refine ⟨by omega, by push_cast; omega, by push_cast; omega, by push_cast; omega⟩
  unfold parse_command
  simp only [hend, hlen, hcond, Int.toNat_one]
  rw [if_pos hcond4]
  simp only [htoNat, htoNat2, hdrop1, hdrop2, htake2, hcontent, hcksum]
  refine ⟨?_, ?_, ?_⟩
  · simp [make_checksum_eq_spec b]
  · trivial
  · unfold frameBytes claimWire
    rw [make_checksum_eq_spec b]

/-- Witness for C3 at the body `"qC"`. -/
theorem framing_roundtrip_witness :
    (parse_command (claimWire (estr "qC"))).is_valid = true ∧
      (parse_command (claimWire (estr "qC"))).content = estr "qC" ∧
      frameBytes (estr "qC") = claimWire (estr "qC") :=
  framing_roundtrip (estr "qC") (by decide) (by decide) (by decide)

/-! ## C++ string and integer helpers -/

/-- `std::string::npos`. -/
def npos : Nat := 2 ^ 64 - 1

/-- `size_t` addition (wraps mod `2 ^ 64`). -/
def u64add (a b : Nat) : Nat := (a + b) % 2 ^ 64

/-- `size_t` subtraction (wraps mod `2 ^ 64`); `a` and `b` are `< 2 ^ 64`. -/
def u64sub (a b : Nat) : Nat := (a + 2 ^ 64 - b) % 2 ^ 64

/-- `std::string::find(c, start)`: index of the first occurrence of `c` at
position `≥ start`, else `npos`. -/
def strFind (l : List Char) (c : Char) (start : Nat) : Nat :=
  match (l.drop start).findIdx? (fun x => x == c) with
  | some n => start + n
  | none => npos

/-- `std::string::substr(pos, cnt)`: `none` models the `std::out_of_range`
exception thrown when `pos > size()` (an uncaught exception aborts the
process). -/
def substr? (l : List Char) (pos cnt : Nat) : Option (List Char) :=
  if pos ≤ l.length then some ((l.drop pos).take cnt) else none

/-- `std::string::substr(pos)` (count defaulted). -/
def substrFrom? (l : List Char) (pos : Nat) : Option (List Char) :=
  if pos ≤ l.length then some (l.drop pos) else none

/-- The `int32_t` value of a `uint32_t` bit pattern (the
`static_cast<int32_t>` used for `SceUID` thread ids). -/
def toInt32 (n : Nat) : Int :=
  if n % 2 ^ 32 < 2 ^ 31 then ((n % 2 ^ 32 : Nat) : Int) else ((n % 2 ^ 32 : Nat) : Int) - 2 ^ 32

/-- The value of one decimal digit, for `std::stol`. -/
def decVal? (c : Char) : Option Nat :=
  if '0' ≤ c ∧ c ≤ '9' then some (c.toNat - 48) else none

/-- Accumulate the maximal leading run of decimal digits. -/
def decDigitsAux : List Char → Nat → Nat
  | [], acc => acc
  | c :: rest, acc =>
    match decVal? c with
    | some d => decDigitsAux rest (acc * 10 + d)
    | none => acc

/-- Leading decimal-digit run, `none` when the first character is not a
digit. -/
def decDigits (l : List Char) : Option Nat :=
  match l with
  | [] => none
  | c :: _ => if (decVal? c).isSome then some (decDigitsAux l 0) else none

/-- `std::stol(s)`, base 10.  Modelled from the spec for the libc part:
optional sign then decimal digits; `none` models the `std::invalid_argument`
exception (uncaught, so the process aborts) when no digits are present.
The out-of-range overflow exception would need a 20-digit input and never
arises here. -/
def stol? (l : List Char) : Option Int :=
  match l with
  | '-' :: rest => (decDigits rest).map (fun n => -(n : Int))
  | '+' :: rest => (decDigits rest).map (fun n => (n : Int))
  | _ => (decDigits l).map (fun n => (n : Int))

/-! ## Guest CPU, kernel, memory and server state -/

/-- The register file of one guest CPU.  Modelled from the spec (§6.2): the
CPU is an external collaborator exposing r0-r12, sp, lr, pc, eight
single-precision float registers (held here as their raw 32-bit patterns —
`std::bit_cast` between `float` and `uint32_t` is bit-preserving), fpscr
and cpsr.  Registers hold `uint32_t` values; reads truncate mod `2 ^ 32`. -/
structure CPUState where
  r : Nat → Nat
  sp : Nat
  lr : Nat
  pc : Nat
  fpu : Nat → Nat
  fpscr : Nat
  cpsr : Nat

def read_reg (cpu : CPUState) (n : Nat) : Nat := cpu.r n % 2 ^ 32
def read_sp (cpu : CPUState) : Nat := cpu.sp % 2 ^ 32
def read_lr (cpu : CPUState) : Nat := cpu.lr % 2 ^ 32
def read_pc (cpu : CPUState) : Nat := cpu.pc % 2 ^ 32
def read_float_bits (cpu : CPUState) (n : Nat) : Nat := cpu.fpu n % 2 ^ 32
def read_fpscr (cpu : CPUState) : Nat := cpu.fpscr % 2 ^ 32
def read_cpsr (cpu : CPUState) : Nat := cpu.cpsr % 2 ^ 32

/-- `fetch_reg` (gdb.cpp lines 207-231): map an RSP register index to a
guest CPU read; indices above 25 read as 0 with a warning. -/
def fetch_reg (cpu : CPUState) (reg : Nat) : Nat :=
  if reg ≤ 12 then read_reg cpu reg
  else if reg = 13 then read_sp cpu
  else if reg = 14 then read_lr cpu
  else if reg = 15 then read_pc cpu
  else if reg ≤ 23 then read_float_bits cpu (reg - 16)
  else if reg = 24 then read_fpscr cpu
  else if reg = 25 then read_cpsr cpu
  else 0

/-- `modify_reg` (gdb.cpp lines 233-267): map an RSP register index to a
guest CPU write; indices above 25 are no-ops with a warning. -/
def modify_reg (cpu : CPUState) (reg : Nat) (value : Nat) : CPUState :=
  if reg ≤ 12 then { cpu with r := fun i => if i = reg then value else cpu.r i }
  else if reg = 13 then { cpu with sp := value }
  else if reg = 14 then { cpu with lr := value }
  else if reg = 15 then { cpu with pc := value }
  else if reg ≤ 23 then { cpu with fpu := fun i => if i = reg - 16 then value else cpu.fpu i }
  else if reg = 24 then { cpu with fpscr := value }
  else if reg = 25 then { cpu with cpsr := value }
  else cpu

/-- One guest thread, as observed by this stub (only its CPU matters for
the specified behavior; statuses and condition variables are external). -/
structure Thread where
  cpu : CPUState

/-- The kernel thread table.  Modelled from the spec (§6.2): a map keyed by
signed integer id with deterministic iteration order; the association list
is kept in that iteration order (a `std::map` iterates in key order and has
no duplicate keys). -/
structure KernelState where
  threads : List (Int × Thread)

/-- `threads.contains(id)`. -/
def threadsContains (k : KernelState) (id : Int) : Bool := (k.threads.lookup id).isSome

/-- `threads[id]` after a `contains` check (`none` when absent: the real
`operator[]` would default-insert a null pointer that the caller then
dereferences). -/
def threadsGet? (k : KernelState) (id : Int) : Option Thread := k.threads.lookup id

/-- Replace the thread stored under `id` (writes through the thread pointer). -/
def threadsUpdate (k : KernelState) (id : Int) (th : Thread) : KernelState :=
  { threads := k.threads.map (fun p => if p.1 == id then (p.1, th) else p) }

/-- Guest memory.  Modelled from the spec (§3, §6.2): a flat 32-bit address
space with page granularity `page_size`; per-page validity `valid_page`;
the external `is_valid_guest_addr_range` check as the abstract predicate
`range_ok`; the external `is_valid_guest_addr` check as `guest_addr`; byte
contents `byte` (indexed by address, value read as `uint8_t`); and the
`elf_base` offset which `Ptr::get_guest` subtracts before writing. -/
structure MemState where
  page_size : Nat
  valid_page : Nat → Bool
  range_ok : Nat → Nat → Bool
  guest_addr : Nat → Bool
  byte : Nat → Nat
  elf_base : Nat

/-- `is_valid_addr`.  Modelled from the spec: per-page validity of a single
address. -/
def is_valid_addr (mem : MemState) (a : Nat) : Bool := mem.valid_page (a / mem.page_size)

/-- `GDBState`: the server-side mutable state used by the handlers. -/
structure GDBState where
  current_thread : Int
  inferior_thread : Int
  thread_info_index : Nat
  server_die : Bool
  last_reply : List Char

/-- The slice of `EmuEnvState` this stub touches. -/
structure EmuState where
  gdb : GDBState
  kernel : KernelState
  mem : MemState

/-- The eventual outcome of `cmd_continue`'s wait-for-break loop, decided
by the environment (guest threads and a possible concurrent shutdown):
either some thread `tid` in the table is found suspended on a breakpoint,
or `server_die` is observed set. -/
inductive ContOutcome where
  | breaks (tid : Int)
  | dies

/-- Handlers (`PacketFunction`): given the emulator state, the environment
outcome oracle and the parsed packet, produce the reply body and the new
state, or `none` when the C++ handler crashes the process or never
returns. -/
def Handler : Type :=
  EmuState → ContOutcome → PacketCommand → Option (List Char × EmuState)

/-! ## Handlers (gdb.cpp lines 163-638) -/

/-- `cmd_supported` (gdb.cpp line 163). -/
def cmd_supported : Handler := fun st _ _ =>
  some (estr "multiprocess-;swbreak+;hwbreak-;qRelocInsn-;fork-events-;vfork-events-;exec-events-;vContSupported+;QThreadEvents-;no-resumed-;xmlRegisters=arm", st)

/-- `cmd_reply_empty` (gdb.cpp line 168). -/
def cmd_reply_empty : Handler := fun st _ _ => some ([], st)

/-- `select_thread` (gdb.cpp line 173): id 0 resolves to the first thread
in iteration order, or `-1` when the table is empty. -/
def select_thread (st : EmuState) (thread_id : Int) : Int :=
  if thread_id = 0 then
    match st.kernel.threads with
    | [] => -1
    | (id, _) :: _ => id
  else thread_id

/-- `cmd_set_current_thread` (gdb.cpp line 182): `H c tid` is accepted and
ignored, `H g tid` sets `current_thread`; always replies `OK`.  A content
shorter than 2 bytes makes `std::string(content_start + 2, length - 2)`
read a huge length (crash, modelled `none`). -/
def cmd_set_current_thread : Handler := fun st _ c =>
  if h : 2 ≤ c.content.length then
    let thread_id := toInt32 (parse_hex (c.content.drop 2))
    let op := c.content.get ⟨1, by omega⟩
    if op = 'c' then some (estr "OK", st)
    else if op = 'g' then
      some (estr "OK",
        { st with gdb := { st.gdb with current_thread := select_thread st thread_id } })
    else some (estr "OK", st)
  else none

/-- `cmd_get_current_thread` (gdb.cpp line 203): `QC` + hex of
`current_thread`. -/
def cmd_get_current_thread : Handler := fun st _ _ =>
  some (estr "QC" ++ to_hexI st.gdb.current_thread, st)

/-- `cmd_read_registers` (gdb.cpp lines 269-285): `E00` when
`current_thread` is `-1` or absent; otherwise the big-endian hex of
registers 0-15. -/
def cmd_read_registers : Handler := fun st _ _ =>
  if st.gdb.current_thread == -1 || !(threadsContains st.kernel st.gdb.current_thread) then
    some (estr "E00", st)
  else
    match threadsGet? st.kernel st.gdb.current_thread with
    | none => none
    | some th =>
      some ((List.range 16).foldl (fun s a => s ++ be_hex (fetch_reg th.cpu a)) [], st)

/-- `cmd_write_registers` (gdb.cpp lines 287-303). -/
def cmd_write_registers : Handler := fun st _ c =>
  if st.gdb.current_thread == -1 || !(threadsContains st.kernel st.gdb.current_thread) then
    some (estr "E00", st)
  else
    match threadsGet? st.kernel st.gdb.current_thread with
    | none => none
    | some th =>
      match substrFrom? c.content 1 with
      | none => none
      | some body =>
        let cpu := (List.range (body.length / 8)).foldl
          (fun cpu a => modify_reg cpu a (parse_hex ((body.drop (a * 8)).take 8))) th.cpu
        some (estr "OK",
          { st with kernel := threadsUpdate st.kernel st.gdb.current_thread { cpu := cpu } })

/-- `cmd_read_register` (gdb.cpp lines 305-317). -/
def cmd_read_register : Handler := fun st _ c =>
  if st.gdb.current_thread == -1 || !(threadsContains st.kernel st.gdb.current_thread) then
    some (estr "E00", st)
  else
    match threadsGet? st.kernel st.gdb.current_thread with
    | none => none
    | some th =>
      match substr? c.content 1 (u64sub c.content.length 1) with
      | none => none
      | some s => some (be_hex (fetch_reg th.cpu (parse_hex s)), st)

/-- `cmd_write_register` (gdb.cpp lines 319-334). -/
def cmd_write_register : Handler := fun st _ c =>
  if st.gdb.current_thread == -1 || !(threadsContains st.kernel st.gdb.current_thread) then
    some (estr "E00", st)
  else
    match threadsGet? st.kernel st.gdb.current_thread with
    | none => none
    | some th =>
      let content := c.content
      let equal_index := strFind content '=' 0
      match substr? content 1 (u64sub equal_index 1),
          substrFrom? content (u64add equal_index 1) with
      | some rs, some vs =>
        let cpu := modify_reg th.cpu (parse_hex rs) (parse_hex vs)
        some (estr "OK",
          { st with kernel := threadsUpdate st.kernel st.gdb.current_thread { cpu := cpu } })
      | _, _ => none

/-- One pass of the validity loop of `check_memory_region` (gdb.cpp lines
341-348): `it` starts at `address` and advances by `page_size` (a
`uint32_t`, so wrapping mod `2 ^ 32`) while `it < address + length`,
checking per-page validity of each sampled address.  The loop can fail to
terminate for degenerate inputs (`page_size = 0`, or an end close to
`2 ^ 32`); `fuel` larger than the number of distinct `uint32_t` values
makes `none` characterize exactly those non-terminating runs. -/
def cmrLoop (mem : MemState) (end_ : Nat) : Nat → Nat → Option Bool
  | _, 0 => none
  | it, fuel + 1 =>
    if it < end_ then
      if is_valid_addr mem it then cmrLoop mem end_ ((it + mem.page_size) % 2 ^ 32) fuel
      else some false
    else some true

/-- `check_memory_region` (gdb.cpp lines 336-350): address 0 is always
rejected; otherwise sample validity at `address + k * page_size`. -/
def check_memory_region (address length : Nat) (mem : MemState) : Option Bool :=
  if address = 0 then some false
  else cmrLoop mem ((address + length) % 2 ^ 32) address (2 ^ 32 + 1)

/-- The byte-reading loop of `cmd_read_memory` (gdb.cpp lines 374-376):
`fmt::format_to(..., "{:02x}", *Ptr<uint8_t>(address + a).get(state.mem))`.
`Ptr::get` returns `nullptr` for address 0 (then the dereference crashes:
`none`). -/
def readMemBytes (mem : MemState) (address len : Nat) : Option (List Char) :=
  (List.range len).foldl
    (fun acc a =>
      match acc with
      | none => none
      | some s =>
        let addr := (address + a) % 2 ^ 32
        if addr = 0 then none
        else some (s ++ padLeft 2 (hexRepr (mem.byte addr % 256))))
    (some [])

/-- `cmd_read_memory` (gdb.cpp lines 352-379). -/
def cmd_read_memory : Handler := fun st _ c =>
  let content := c.content
  let pos := strFind content ',' 0
  match substr? content 1 (u64sub pos 1), substrFrom? content (u64add pos 1) with
  | some first, some second =>
    let address := parse_hex first
    let length := parse_hex second
    let guest_end := (address + length) % 2 ^ 32
    if !(st.mem.range_ok address guest_end) then some (estr "EAA", st)
    else
      match check_memory_region address length st.mem with
      | none => none
      | some false => some (estr "EAA", st)
      | some true =>
        match readMemBytes st.mem address length with
        | none => none
        | some s => some (s, st)
  | _, _ => none

/-- `Ptr::get_guest` (mem/ptr.h lines 70-88): address 0 and addresses whose
`elf_base`-relative translation fails the per-page check yield `nullptr`
(the caller dereferences it: crash); otherwise the write lands at the
relative host offset. -/
def get_guest_index? (mem : MemState) (addr : Nat) : Option Nat :=
  if addr = 0 then none
  else
    let rel := (addr + 2 ^ 32 - mem.elf_base % 2 ^ 32) % 2 ^ 32
    if is_valid_addr mem rel then some rel else none

/-- The byte-writing loop of `cmd_write_memory` (gdb.cpp lines 395-397). -/
def writeMemBytes (mem : MemState) (address len : Nat) (hex_data : List Char) :
    Option MemState :=
  (List.range len).foldl
    (fun acc a =>
      match acc with
      | none => none
      | some m =>
        match get_guest_index? m ((address + a) % 2 ^ 32), substr? hex_data (a * 2) 2 with
        | some rel, some hx =>
          some { m with byte := fun x => if x = rel then parse_hex hx % 256 else m.byte x }
        | _, _ => none)
    (some mem)

/-- `cmd_write_memory` (gdb.cpp lines 381-400). -/
def cmd_write_memory : Handler := fun st _ c =>
  let content := c.content
  let pos_first := strFind content ',' 0
  let pos_second := strFind content ':' 0
  match substr? content 1 (u64sub pos_first 1),
      substr? content (u64add pos_first 1) (u64sub pos_second pos_first),
      substrFrom? content (u64add pos_second 1) with
  | some first, some second, some hex_data =>
    let address := parse_hex first
    let length := parse_hex second
    match check_memory_region address length st.mem with
    | none => none
    | some false => some (estr "EAA", st)
    | some true =>
      match writeMemBytes st.mem address length hex_data with
      | none => none
      | some m => some (estr "OK", { st with mem := m })
  | _, _, _ => none

/-- `cmd_detach` (gdb.cpp line 425; defined in the source but not bound in
the dispatch table). -/
def cmd_detach : Handler := fun st _ _ => some (estr "OK", st)

/-- `cmd_continue_supported` (gdb.cpp line 528). -/
def cmd_continue_supported : Handler := fun st _ _ => some (estr "vCont;c;C;s;S;t;r", st)

/-- `cmd_thread_alive` (gdb.cpp lines 532-542). -/
def cmd_thread_alive : Handler := fun st _ c =>
  let thread_id := toInt32 (parse_hex (c.content.drop 1))
  if threadsContains st.kernel thread_id then some (estr "OK", st)
  else some (estr "E00", st)

/-- `cmd_kill` (gdb.cpp line 544). -/
def cmd_kill : Handler := fun st _ _ => some (estr "OK", st)

/-- `cmd_die` (gdb.cpp lines 548-551): set `server_die`, empty reply. -/
def cmd_die : Handler := fun st _ _ =>
  some ([], { st with gdb := { st.gdb with server_die := true } })

/-- `cmd_attached` (gdb.cpp line 553). -/
def cmd_attached : Handler := fun st _ _ => some (estr "1", st)

/-- `cmd_thread_status` (gdb.cpp line 555). -/
def cmd_thread_status : Handler := fun st _ _ => some (estr "T0", st)

/-- `cmd_reason` (gdb.cpp line 557). -/
def cmd_reason : Handler := fun st _ _ => some (estr "S05", st)

/-- `cmd_get_first_thread` (gdb.cpp lines 559-564): reset the enumeration
cursor and reply with the first thread id.  `threads.begin()` is
dereferenced unconditionally; on an empty table that iterator is `end()`
and the access is out of bounds (`none`). -/
def cmd_get_first_thread : Handler := fun st _ _ =>
  match st.kernel.threads with
  | [] => none
  | (id, _) :: _ =>
    some ('m' :: to_hexI id, { st with gdb := { st.gdb with thread_info_index := 0 } })

/-- `cmd_get_next_thread` (gdb.cpp lines 566-582): advance the cursor;
reply `l` when it reaches the table size, otherwise `m` + hex of the id at
the cursor (`std::advance` past `end()` is out of bounds: `none`). -/
def cmd_get_next_thread : Handler := fun st _ _ =>
  let idx := st.gdb.thread_info_index + 1
  let st1 := { st with gdb := { st.gdb with thread_info_index := idx } }
  if idx = st.kernel.threads.length then some (estr "l", st1)
  else
    match st.kernel.threads[idx]? with
    | some (id, _) => some ('m' :: to_hexI id, st1)
    | none => none

/-- `cmd_add_breakpoint` (gdb.cpp lines 584-606): `EAA` when the address is
not a valid guest address, else install (in the external debugger) and
reply `OK`.  `kind == 2` marks Thumb mode. -/
def cmd_add_breakpoint : Handler := fun st _ c =>
  let content := c.content
  let first := strFind content ',' 0
  let second := strFind content ',' (u64add first 1)
  match substr? content 1 (u64sub first 1),
      substr? content (u64add first 1) (u64sub (u64sub second 1) first),
      substr? content (u64add second 1) (u64sub (u64sub content.length second) 1) with
  | some ts, some as_, some ks =>
    match stol? ts, stol? ks with
    | some _, some _ =>
      let address := parse_hex as_
      if !(st.mem.guest_addr address) then some (estr "EAA", st)
      else some (estr "OK", st)
    | _, _ => none
  | _, _, _ => none

/-- `cmd_remove_breakpoint` (gdb.cpp lines 608-626). -/
def cmd_remove_breakpoint : Handler := fun st _ c =>
  let content := c.content
  let first := strFind content ',' 0
  let second := strFind content ',' (u64add first 1)
  match substr? content 1 (u64sub first 1),
      substr? content (u64add first 1) (u64sub (u64sub second 1) first),
      substr? content (u64add second 1) (u64sub (u64sub content.length second) 1) with
  | some ts, some as_, some ks =>
    match stol? ts, stol? ks with
    | some _, some _ =>
      let address := parse_hex as_
      if !(st.mem.guest_addr address) then some (estr "EAA", st)
      else some (estr "OK", st)
    | _, _ => none
  | _, _, _ => none

/-- `cmd_deprecated` (gdb.cpp line 628). -/
def cmd_deprecated : Handler := fun st _ _ => some ([], st)

/-- `cmd_unimplemented` (gdb.cpp line 634). -/
def cmd_unimplemented : Handler := fun st _ _ => some ([], st)

/-! ### `findIdx?` helper lemmas (for `std::string::find`) -/

theorem findIdx?_none_of (p : Char → Bool) (l : List Char) (h : ∀ c ∈ l, p c = false) :
    List.findIdx? p l = none := by
  rw [List.findIdx?_eq_none_iff]
  intro x hx
  simp [h x hx]

theorem findIdx?_append_left (p : Char → Bool) :
    ∀ (l1 l2 : List Char), (∀ c ∈ l1, p c = false) →
    List.findIdx? p (l1 ++ l2) = (List.findIdx? p l2).map (fun k => k + l1.length) := by
  intro l1
  induction l1 with
  | nil =>
    intro l2 _
    cases hfl : List.findIdx? p l2 <;> simp [hfl]
  | cons x xs ih =>
    intro l2 h
    have hx : p x = false := h x (List.mem_cons_self x xs)
    rw [List.cons_append, List.findIdx?_cons]
    simp only [hx, cond_false]
    rw [List.findIdx?_start_succ, ih l2 (fun c hc => h c (List.mem_cons_of_mem x hc))]
    cases hfl : List.findIdx? p l2 <;> simp [hfl, List.length_cons] <;> omega

theorem strFind_lt (l : List Char) (c : Char) (s : Nat) (h : strFind l c s ≠ npos) :
    s ≤ strFind l c s ∧ strFind l c s < l.length := by
  unfold strFind at h ⊢
  cases hf : (l.drop s).findIdx? (fun x => x == c) with
  | none => rw [hf] at h; exact absurd rfl h
  | some n =>
    simp only [hf]
    obtain ⟨hn, -⟩ := List.findIdx?_eq_some_iff_getElem.mp hf
    rw [List.length_drop] at hn
    omega

/-! ## The execution controller: `cmd_continue` (gdb.cpp lines 427-526) -/

/-- The body of each supported `vCont` action (gdb.cpp lines 439-516).
The kernel-interaction phases (resume the thread that previously hit the
breakpoint, resume the world, poll for a break, stop the world) go through
external resume/suspend/condition-variable primitives; their only effects
on the server state are captured here, with the outcome of the
wait-for-break poll supplied by the `ContOutcome` oracle:

* If `inferior_thread ≠ 0` but absent from the table,
  `threads[inferior_thread]` default-inserts a null `ThreadStatePtr` and
  `thread->mutex` dereferences it (`none`).
* A step (`s`/`S`) resumes only the inferior thread; the common tail sets
  `current_thread := inferior_thread` and replies `S05`.
* A continue (`c`/`C`) resumes all threads and polls; if the poll observes
  `server_die` (set by a concurrent shutdown, recorded here) the reply is
  empty and `current_thread` is untouched; otherwise the breaking thread is
  recorded as `inferior_thread`, the world is stopped, and the common tail
  runs. -/
def vContAct (st : EmuState) (w : ContOutcome) (step : Bool) : Option (List Char × EmuState) :=
  if st.gdb.inferior_thread != 0 && (threadsGet? st.kernel st.gdb.inferior_thread).isNone then
    none
  else if step then
    some (estr "S05",
      { st with gdb := { st.gdb with current_thread := st.gdb.inferior_thread } })
  else
    match w with
    | .dies =>
      some ([], { st with gdb := { st.gdb with server_die := true } })
    | .breaks tid =>
      match threadsGet? st.kernel tid with
      | none => none
      | some _ =>
        some (estr "S05",
          { st with gdb := { st.gdb with inferior_thread := tid, current_thread := tid } })

/-- The action-scanning do-while loop of `cmd_continue` (gdb.cpp lines
431-523): `next = content.find(';', index + 1)`,
`text = content.substr(index + 1, next - index - 1)` (all `uint64_t`
arithmetic), act on `text[0]` (which reads `'\0'` when `text` is empty),
returning from inside the switch for a supported action letter and
otherwise advancing `index = next` while `next != npos`. -/
def vContLoop (st : EmuState) (w : ContOutcome) (content : List Char) :
    Nat → Nat → Option (List Char × EmuState)
  | _, 0 => none
  | index, fuel + 1 =>
    let next := strFind content ';' (index + 1)
    match substr? content (index + 1) (u64sub (u64sub next index) 1) with
    | none => none
    | some text =>
      let cmd := text.headD (Char.ofNat 0)
      if cmd == 'c' || cmd == 'C' || cmd == 's' || cmd == 'S' then
        vContAct st w (cmd == 's' || cmd == 'S')
      else if next = npos then some ([], st)
      else vContLoop st w content next fuel

/-- `cmd_continue` (gdb.cpp line 427): scan the `vCont` body from index 5.
The loop advances `index` to a strictly larger position `< content.length`
on every iteration (`strFind_lt`), so fuel `content.length + 1` never runs
out; the fuel argument only makes the recursion structural. -/
def cmd_continue : Handler := fun st w c =>
  vContLoop st w c.content 5 (c.content.length + 1)

/-! ## Command dispatch (gdb.cpp lines 640-704) -/

/-- `command_begins_with` (gdb.cpp lines 698-704): the packet content is at
least as long as the prefix and starts with it byte for byte. -/
def command_begins_with (c : PacketCommand) (name : List Char) : Bool :=
  name.length ≤ c.content.length && c.content.take name.length == name

/-- The ordered dispatch table `functions` (gdb.cpp lines 640-696). -/
def dispatchTable : List (List Char × Handler) :=
  [ (estr "!", cmd_unimplemented),
    (estr "?", cmd_reason),
    (estr "H", cmd_set_current_thread),
    (estr "T", cmd_thread_alive),
    (estr "i", cmd_unimplemented),
    (estr "I", cmd_unimplemented),
    (estr "A", cmd_unimplemented),
    (estr "bc", cmd_unimplemented),
    (estr "bs", cmd_unimplemented),
    (estr "t", cmd_unimplemented),
    (estr "p", cmd_read_register),
    (estr "P", cmd_write_register),
    (estr "g", cmd_read_registers),
    (estr "G", cmd_write_registers),
    (estr "m", cmd_read_memory),
    (estr "M", cmd_write_memory),
    (estr "X", cmd_unimplemented),
    (estr "qfThreadInfo", cmd_get_first_thread),
    (estr "qsThreadInfo", cmd_get_next_thread),
    (estr "qSupported", cmd_supported),
    (estr "qAttached", cmd_attached),
    (estr "qTStatus", cmd_thread_status),
    (estr "qC", cmd_get_current_thread),
    (estr "q", cmd_unimplemented),
    (estr "Q", cmd_unimplemented),
    (estr "d", cmd_unimplemented),
    (estr "r", cmd_unimplemented),
    (estr "R", cmd_unimplemented),
    (estr "k", cmd_die),
    (estr "vCont?", cmd_continue_supported),
    (estr "vCont", cmd_continue),
    (estr "vKill", cmd_kill),
    (estr "vMustReplyEmpty", cmd_reply_empty),
    (estr "v", cmd_unimplemented),
    (estr "z", cmd_remove_breakpoint),
    (estr "Z", cmd_add_breakpoint),
    (estr "b", cmd_deprecated),
    (estr "B", cmd_deprecated),
    (estr "c", cmd_deprecated),
    (estr "C", cmd_deprecated),
    (estr "s", cmd_deprecated),
    (estr "S", cmd_deprecated) ]

/-- First matching table entry for a packet, as the dispatch loop of
`server_next` (gdb.cpp lines 765-776) selects it. -/
def dispatch? (c : PacketCommand) : Option Handler :=
  (dispatchTable.find? (fun e => command_begins_with c e.1)).map (fun e => e.2)

/-! ## The session loop: `server_next` (gdb.cpp lines 706-801) -/

/-- The hash-scanning loop of `server_next` (gdb.cpp lines 742-748): the
first `'#'` at an index `i ≥ pos + 1` with `i + 2 < buf.length` (so that
both checksum bytes are already buffered); `none` when the frame is still
incomplete. -/
def findHash (buf : List Char) (pos : Nat) : Option Nat :=
  (((buf.drop (pos + 1)).take (buf.length - (pos + 3))).findIdx?
    (fun x => x == '#')).map (fun j => pos + 1 + j)

/-- The buffer-consuming loop of `server_next` (gdb.cpp lines 727-794):
process the receive buffer from `pos`, returning the concatenation of all
bytes sent to the client (acks and framed replies, in order) and either
the final state with the consumed position, or `none` when a handler
crashed the process.  `'+'` is consumed silently; `'-'` retransmits
`last_reply`; a complete `$…#cc` frame is acknowledged with `'+'` BEFORE
parsing, then NACKed with `'-'` if the checksum fails, or dispatched — the
reply is stored in `last_reply` and transmitted unless the handler set
`server_die`.  Each step advances `pos` by at least one while `pos <
buf.length`, so fuel `buf.length + 1` never runs out; the fuel argument
only makes the recursion structural. -/
def processBuffer (st : EmuState) (w : ContOutcome) (buf : List Char) :
    Nat → Nat → List Char × Option (EmuState × Nat)
  | _, 0 => ([], none)
  | pos, fuel + 1 =>
    if hp : pos < buf.length then
      let c := buf.get ⟨pos, hp⟩
      if c == '+' then processBuffer st w buf (pos + 1) fuel
      else if c == '-' then
        let rest := processBuffer st w buf (pos + 1) fuel
        (frameBytes st.gdb.last_reply ++ rest.1, rest.2)
      else if c == '$' then
        match findHash buf pos with
        | none => ([], some (st, pos))
        | some hash =>
          if hash + 2 ≥ buf.length then ([], some (st, pos))
          else
            let packet_len := hash + 3 - pos
            let cmd := parse_command ((buf.drop pos).take packet_len)
            if cmd.is_valid then
              match dispatch? cmd with
              | some fn =>
                match fn st w cmd with
                | none => (['+'], none)
                | some (reply, st1) =>
                  let st2 := { st1 with gdb := { st1.gdb with last_reply := reply } }
                  if st2.gdb.server_die then
                    let rest := processBuffer st2 w buf (pos + packet_len) fuel
                    ('+' :: rest.1, rest.2)
                  else
                    let rest := processBuffer st2 w buf (pos + packet_len) fuel
                    ('+' :: frameBytes reply ++ rest.1, rest.2)
              | none =>
                let st2 := { st with gdb := { st.gdb with last_reply := [] } }
                let rest := processBuffer st2 w buf (pos + packet_len) fuel
                ('+' :: frameBytes [] ++ rest.1, rest.2)
            else
              let rest := processBuffer st w buf (pos + packet_len) fuel
              ('+' :: '-' :: rest.1, rest.2)
      else processBuffer st w buf (pos + 1) fuel
    else ([], some (st, pos))

/-- One call of `server_next` (gdb.cpp lines 706-801).  The
`select`/`server_die` gate at the top returns `-1` before any receive or
send when the die flag is set; a receive of length `≤ 0` ends the session;
otherwise the received bytes are appended to the session buffer
(`buffered` models the `static recv_buffer`), the buffer is processed, and
the consumed prefix is erased.  Result: bytes sent, and (unless the
session ends or a handler crashes) the new state with the remaining
buffer. -/
def server_next (st : EmuState) (w : ContOutcome) (buffered incoming : List Char) :
    List Char × Option (EmuState × List Char) :=
  if st.gdb.server_die then ([], none)
  else if incoming.length = 0 then ([], none)
  else
    let buf := buffered ++ incoming
    let r := processBuffer st w buf 0 (buf.length + 1)
    (r.1, r.2.map (fun p => (p.1, buf.drop p.2)))

/-! ## Shared sample states for concrete instances -/

/-- A guest CPU with all registers zero. -/
def cpuZero : CPUState :=
  { r := fun _ => 0, sp := 0, lr := 0, pc := 0, fpu := fun _ => 0, fpscr := 0, cpsr := 0 }

/-- A memory in which every page is valid, the external range check always
passes, and every byte reads zero. -/
def memTriv : MemState :=
  { page_size := 4096, valid_page := fun _ => true, range_ok := fun _ _ => true,
    guest_addr := fun _ => true, byte := fun _ => 0, elf_base := 0 }

/-- Server state with the given current/inferior threads and thread table. -/
def stWith (cur inf : Int) (ths : List (Int × Thread)) : EmuState :=
  { gdb := { current_thread := cur, inferior_thread := inf, thread_info_index := 0,
             server_die := false, last_reply := [] },
    kernel := { threads := ths },
    mem := memTriv }

/-- A thread whose registers are all zero. -/
def thZero : Thread := ⟨cpuZero⟩

/-! ## Helper lemmas about the register dump -/

/-- The `g`-reply string-building loop of `cmd_read_registers`. -/
def regsDump (cpu : CPUState) : List Char :=
  (List.range 16).foldl (fun s a => s ++ be_hex (fetch_reg cpu a)) []

theorem foldl_append_length (g : Nat → List Char) :
    ∀ (l : List Nat) (init : List Char),
    (l.foldl (fun s a => s ++ g a) init).length
      = init.length + (l.map (fun a => (g a).length)).sum := by
  intro l
  induction l with
  | nil => intro init; simp
  | cons a rest ih =>
    intro init
    simp only [List.foldl_cons, List.map_cons, List.sum_cons]
    rw [ih (init ++ g a)]
    simp only [List.length_append]
    omega

theorem foldl_append_congr (g1 g2 : Nat → List Char) :
    ∀ (l : List Nat) (init : List Char), (∀ a ∈ l, g1 a = g2 a) →
    l.foldl (fun s a => s ++ g1 a) init = l.foldl (fun s a => s ++ g2 a) init := by
  intro l
  induction l with
  | nil => intro init _; rfl
  | cons a rest ih =>
    intro init h
    simp only [List.foldl_cons]
    rw [h a (List.mem_cons_self a rest)]
    exact ih (init ++ g2 a) (fun x hx => h x (List.mem_cons_of_mem a hx))

theorem fetch_reg_low_indep (cpu : CPUState) (f : Nat → Nat) (x y : Nat) (a : Nat)
    (ha : a ≤ 15) :
    fetch_reg { cpu with fpu := f, fpscr := x, cpsr := y } a = fetch_reg cpu a := by
  unfold fetch_reg read_reg read_sp read_lr read_pc read_float_bits read_fpscr read_cpsr
  split_ifs <;> first | rfl | omega

/-! ## Claim C7 -/

/-- C7: the `g` packet replies `E00`, reading no CPU state, exactly when
`current_thread` is `-1` or absent from the thread table; otherwise it
replies the big-endian hex of registers 0-15 only — 128 hex digits, and
the reply is unchanged by arbitrary float/fpscr/cpsr register contents. -/
theorem read_registers_e00_or_regs_0_15 (st : EmuState) (w : ContOutcome) (c : PacketCommand) :
    (st.gdb.current_thread = -1 ∨ threadsGet? st.kernel st.gdb.current_thread = none →
      cmd_read_registers st w c = some (estr "E00", st)) ∧
    (∀ th, st.gdb.current_thread ≠ -1 →
      threadsGet? st.kernel st.gdb.current_thread = some th →
      cmd_read_registers st w c = some (regsDump th.cpu, st) ∧
        (regsDump th.cpu).length = 128 ∧
        ∀ (f : Nat → Nat) (x y : Nat),
          regsDump { th.cpu with fpu := f, fpscr := x, cpsr := y } = regsDump th.cpu) := by
  constructor
  · intro h
    unfold cmd_read_registers
    rcases h with h | h
    · rw [h]
      simp
    · have hc : threadsContains st.kernel st.gdb.current_thread = false := by
        unfold threadsContains
        unfold threadsGet? at h
        rw [h]
        rfl
      simp [hc]
  · intro th hne hsome
    have hc : threadsContains st.kernel st.gdb.current_thread = true := by
      unfold threadsContains
      unfold threadsGet? at hsome
      rw [hsome]
      rfl
    have hbeq : (st.gdb.current_thread == -1) = false := by
      simp [hne]
    refine ⟨?_, ?_, ?_⟩
    · unfold cmd_read_registers
      rw [hbeq, hc]
      simp only [Bool.false_or, Bool.not_true]
      rw [if_neg (by simp)]
      rw [hsome]
      rfl
    · unfold regsDump
      rw [foldl_append_length]
      simp only [be_hex_length, List.length_nil]
      decide
    · intro f x y
      unfold regsDump
      apply foldl_append_congr
      intro a ha
      have : a < 16 := List.mem_range.mp ha
      rw [fetch_reg_low_indep th.cpu f x y a (by omega)]

/-- Witness for C7: with `current_thread = -1` the reply is `E00`; with a
live thread `5` the reply is the 128-digit register dump. -/
theorem read_registers_e00_or_regs_0_15_witness :
    cmd_read_registers (stWith (-1) 0 []) ContOutcome.dies {}
        = some (estr "E00", stWith (-1) 0 []) ∧
      cmd_read_registers (stWith 5 0 [(5, thZero)]) ContOutcome.dies {}
        = some (regsDump thZero.cpu, stWith 5 0 [(5, thZero)]) ∧
      (regsDump thZero.cpu).length = 128 :=
  ⟨(read_registers_e00_or_regs_0_15 (stWith (-1) 0 []) ContOutcome.dies {}).1 (Or.inl rfl),
   ((read_registers_e00_or_regs_0_15 (stWith 5 0 [(5, thZero)]) ContOutcome.dies {}).2
      thZero (by decide) rfl).1,
   ((read_registers_e00_or_regs_0_15 (stWith 5 0 [(5, thZero)]) ContOutcome.dies {}).2
      thZero (by decide) rfl).2.1⟩

/-! ## Claim C10 -/

/-- C10: `cmd_get_first_thread` dereferences `threads.begin()`
unconditionally: the access is out of bounds (modelled `none`, no reply of
any kind — in particular neither `l` nor `E00`) exactly when the thread
table is empty, and in bounds whenever the table is non-empty, in which
case the reply is `m` + hex of the first id. -/
theorem qfThreadInfo_begin_deref (st : EmuState) (w : ContOutcome) (c : PacketCommand) :
    (cmd_get_first_thread st w c = none ↔ st.kernel.threads = []) ∧
    (∀ id th rest, st.kernel.threads = (id, th) :: rest →
      cmd_get_first_thread st w c
        = some ('m' :: to_hexI id,
            { st with gdb := { st.gdb with thread_info_index := 0 } })) := by
  constructor
  · cases hts : st.kernel.threads with
    | nil => simp [cmd_get_first_thread, hts]
    | cons t0 rest => simp [cmd_get_first_thread, hts]
  · intro id th rest h
    simp [cmd_get_first_thread, h]

/-- Witness for C10: empty table gives no reply at all; a one-thread table
replies `m0000002a`. -/
theorem qfThreadInfo_begin_deref_witness :
    cmd_get_first_thread (stWith 3 0 []) ContOutcome.dies {} = none ∧
      cmd_get_first_thread (stWith 3 0 [(0x2a, thZero)]) ContOutcome.dies {}
        = some ('m' :: to_hexI 0x2a,
            { stWith 3 0 [(0x2a, thZero)] with
              gdb := { (stWith 3 0 [(0x2a, thZero)]).gdb with thread_info_index := 0 } }) :=
  ⟨(qfThreadInfo_begin_deref (stWith 3 0 []) ContOutcome.dies {}).1.mpr rfl,
   (qfThreadInfo_begin_deref (stWith 3 0 [(0x2a, thZero)]) ContOutcome.dies {}).2
      0x2a thZero [] rfl⟩

/-! ## Claim C6 -/

/-- The replies of `m` successive `qsThreadInfo` packets. -/
def qsTrace : Nat → EmuState → Option (List (List Char))
  | 0, _ => some []
  | m + 1, st =>
    match cmd_get_next_thread st ContOutcome.dies {} with
    | none => none
    | some (r, st1) => (qsTrace m st1).map (fun rs => r :: rs)

/-- The replies of one `qfThreadInfo` followed by `n` `qsThreadInfo`. -/
def enumTrace (st : EmuState) (n : Nat) : Option (List (List Char)) :=
  match cmd_get_first_thread st ContOutcome.dies {} with
  | none => none
  | some (r, st1) => (qsTrace n st1).map (fun rs => r :: rs)

theorem qsTrace_spec : ∀ (m : Nat) (st : EmuState), 0 < m →
    st.gdb.thread_info_index + m = st.kernel.threads.length →
    qsTrace m st
      = some ((st.kernel.threads.drop (st.gdb.thread_info_index + 1)).map
          (fun p => 'm' :: to_hexI p.1) ++ [estr "l"]) := by
  intro m
  induction m with
  | zero => intro st h0 _; omega
  | succ mm ih =>
    intro st _ hlen
    unfold qsTrace cmd_get_next_thread
    by_cases hend : st.gdb.thread_info_index + 1 = st.kernel.threads.length
    · have hmm : mm = 0 := by omega
      rw [if_pos hend]
      simp only [hmm, qsTrace, Option.map_some]
      rw [List.drop_eq_nil_of_le (by omega)]
      rfl
    · rw [if_neg hend]
      have hidx : st.gdb.thread_info_index + 1 < st.kernel.threads.length := by omega
      rw [List.getElem?_eq_getElem hidx]
      rcases hgp : st.kernel.threads[st.gdb.thread_info_index + 1] with ⟨id, th2⟩
      have hrec := ih
        { st with gdb := { st.gdb with thread_info_index := st.gdb.thread_info_index + 1 } }
        (by omega)
        (by show st.gdb.thread_info_index + 1 + mm = st.kernel.threads.length; omega)
      dsimp only
      rw [hrec]
      simp only [Option.map_some]
      congr 1
      rw [List.drop_eq_getElem_cons hidx, hgp]
      simp

/-- C6: on a non-empty thread table, `qfThreadInfo` followed by `length`
many `qsThreadInfo` yields `m` + hex of each live thread id exactly once,
in the table's iteration order, and terminates with `l`. -/
theorem thread_enumeration (st : EmuState) (hne : st.kernel.threads ≠ []) :
    enumTrace st st.kernel.threads.length
      = some (st.kernel.threads.map (fun p => 'm' :: to_hexI p.1) ++ [estr "l"]) := by
  cases hts : st.kernel.threads with
  | nil => exact absurd hts hne
  | cons t0 rest =>
    unfold enumTrace
    have h1 : cmd_get_first_thread st ContOutcome.dies {}
        = some ('m' :: to_hexI t0.1,
            { st with gdb := { st.gdb with thread_info_index := 0 } }) := by
      unfold cmd_get_first_thread
      rw [hts]
    rw [h1]
    have h2 := qsTrace_spec (t0 :: rest).length
      { st with gdb := { st.gdb with thread_info_index := 0 } }
      (by simp) (by simp [hts])
    simp only [hts] at h2 ⊢
    rw [h2]
    simp

/-- Witness for C6 on a two-thread table. -/
theorem thread_enumeration_witness :
    enumTrace (stWith 3 0 [(0x2a, thZero), (0x2b, thZero)]) 2
      = some (([(0x2a, thZero), ((0x2b : Int), thZero)]).map (fun p => 'm' :: to_hexI p.1)
          ++ [estr "l"]) :=
  thread_enumeration (stWith 3 0 [(0x2a, thZero), (0x2b, thZero)]) (by simp [stWith])

/-! ## Helper lemmas for the memory-read claim -/

theorem u64sub_small (a b : Nat) (hb : b ≤ a) (ha : a < 2 ^ 64) : u64sub a b = a - b := by
  unfold u64sub
  have h1 : a + 2 ^ 64 - b = 2 ^ 64 + (a - b) := by omega
  rw [h1, Nat.add_mod_left, Nat.mod_eq_of_lt (by omega)]

theorem u64add_small (a b : Nat) (h : a + b < 2 ^ 64) : u64add a b = a + b := by
  unfold u64add
  exact Nat.mod_eq_of_lt h

theorem hexRepr_digits (n : Nat) : ∀ c ∈ hexRepr n, (hexVal? c).isSome := by
  intro c hc
  unfold hexRepr at hc
  by_cases h0 : n = 0
  · rw [if_pos h0] at hc
    have : c = '0' := by simpa using hc
    rw [this]
    rfl
  · rw [if_neg h0] at hc
    exact hexCore_digits n n c hc

theorem hexRepr_not_comma (n : Nat) : ∀ c ∈ hexRepr n, (c == ',') = false := by
  intro c hc
  have := hexRepr_digits n c hc
  cases hcc : (c == ',') with
  | false => rfl
  | true =>
    rw [show c = ',' from by simpa using hcc] at this
    simp [hexVal?] at this

/-- In the content of an `m addr,len` packet built from hex digit strings,
`find(',')` lands exactly on the separator. -/
theorem mAddrLen_find (a len : Nat) :
    strFind ('m' :: hexRepr a ++ ',' :: hexRepr len) ',' 0 = 1 + (hexRepr a).length := by
  unfold strFind
  rw [List.drop_zero]
  have h1 : ∀ c ∈ 'm' :: hexRepr a, ((fun x => x == ',') c) = false := by
    intro c hc
    rcases List.mem_cons.mp hc with h | h
    · rw [h]; rfl
    · exact hexRepr_not_comma a c h
  have := findIdx?_append_left (fun x => x == ',') ('m' :: hexRepr a) (',' :: hexRepr len) h1
  rw [show ('m' :: hexRepr a ++ ',' :: hexRepr len)
      = ('m' :: hexRepr a) ++ (',' :: hexRepr len) from by simp] at *
  rw [this, List.findIdx?_cons]
  simp
  omega

/-- The per-iteration validity samples of `check_memory_region`, as a
bounded conjunction: sample `k` is `address + k * page_size`, and only
samples below the range end are consulted. -/
def samplesValid (mem : MemState) (end_ : Nat) : Nat → Nat → Bool
  | _, 0 => true
  | it, m + 1 =>
    (!(decide (it < end_)) || is_valid_addr mem it)
      && samplesValid mem end_ (it + mem.page_size) m

theorem cmrLoop_correct (mem : MemState) (end_ : Nat) (hps : 0 < mem.page_size)
    (hend : end_ + mem.page_size ≤ 2 ^ 32) :
    ∀ (n it : Nat), end_ ≤ it + n * mem.page_size →
    ∀ fuel, n < fuel →
    cmrLoop mem end_ it fuel = some (samplesValid mem end_ it n) := by
  intro n
  induction n with
  | zero =>
    intro it hn fuel hf
    cases fuel with
    | zero => omega
    | succ f =>
      unfold cmrLoop
      rw [if_neg (by omega)]
      rfl
  | succ m ih =>
    intro it hn fuel hf
    cases fuel with
    | zero => omega
    | succ f =>
      have hmul : (m + 1) * mem.page_size = m * mem.page_size + mem.page_size :=
        Nat.succ_mul m _
      unfold cmrLoop samplesValid
      by_cases hit : it < end_
      · rw [if_pos hit]
        by_cases hv : is_valid_addr mem it
        · rw [if_pos hv]
          have hwrap : (it + mem.page_size) % 2 ^ 32 = it + mem.page_size :=
            Nat.mod_eq_of_lt (by omega)
          rw [hwrap, ih (it + mem.page_size) (by omega) f (by omega)]
          simp [hit, hv]
        · rw [if_neg hv]
          simp only [Bool.not_eq_true] at hv
          simp [hit, hv]
      · rw [if_neg hit]
        have hall : samplesValid mem end_ (it + mem.page_size) m = true := by
          clear ih hmul hf
          induction m generalizing it with
          | zero => rfl
          | succ mm ihm =>
            unfold samplesValid
            have h1 : ¬(it + mem.page_size < end_) := by omega
            have h2 := ihm (it + mem.page_size) (by omega)
            simp [h1, h2]
        simp [hit, hall]

theorem check_memory_region_correct (mem : MemState) (a len : Nat)
    (hps : 0 < mem.page_size) (hnw : a + len + mem.page_size ≤ 2 ^ 32) (ha0 : a ≠ 0) :
    check_memory_region a len mem = some (samplesValid mem (a + len) a len) := by
  unfold check_memory_region
  rw [if_neg ha0]
  have hmod : (a + len) % 2 ^ 32 = a + len := Nat.mod_eq_of_lt (by omega)
  rw [hmod]
  apply cmrLoop_correct mem (a + len) hps (by omega) len a ?_ (2 ^ 32 + 1) ?_
  · have : len ≤ len * mem.page_size := Nat.le_mul_of_pos_right len hps
    omega
  · omega

theorem samplesValid_false_iff (mem : MemState) (end_ : Nat) :
    ∀ (count it : Nat),
    (samplesValid mem end_ it count = false ↔
      ∃ k < count, it + k * mem.page_size < end_ ∧
        is_valid_addr mem (it + k * mem.page_size) = false) := by
  intro count
  induction count with
  | zero =>
    intro it
    simp [samplesValid]
  | succ m ih =>
    intro it
    unfold samplesValid
    constructor
    · intro h
      cases hx : (!(decide (it < end_)) || is_valid_addr mem it) with
      | false =>
        have hx1 : it < end_ ∧ is_valid_addr mem it = false := by
          constructor
          · by_contra hc
            simp [hc] at hx
          · by_contra hc
            simp [Bool.not_eq_false] at hc
            simp [hc] at hx
        exact ⟨0, by omega, by simpa using hx1.1, by simpa using hx1.2⟩
      | true =>
        rw [hx, Bool.true_and] at h
        rcases (ih (it + mem.page_size)).mp h with ⟨k, hk, hlt, hnv⟩
        refine ⟨k + 1, by omega, ?_, ?_⟩
        · have : it + (k + 1) * mem.page_size = it + mem.page_size + k * mem.page_size := by
            ring
          omega
        · have harith : it + (k + 1) * mem.page_size
              = it + mem.page_size + k * mem.page_size := by ring
          rw [harith]
          exact hnv
    · rintro ⟨k, hk, hlt, hnv⟩
      cases k with
      | zero =>
        simp only [Nat.zero_mul, Nat.add_zero] at hlt hnv
        simp [hlt, hnv]
      | succ kk =>
        have harith : it + (kk + 1) * mem.page_size
            = it + mem.page_size + kk * mem.page_size := by ring
        rw [harith] at hlt hnv
        have : samplesValid mem end_ (it + mem.page_size) m = false :=
          (ih (it + mem.page_size)).mpr ⟨kk, by omega, hlt, hnv⟩
        simp [this]

theorem samplesValid_true_of (mem : MemState) (end_ it count : Nat)
    (h : ∀ k < count, it + k * mem.page_size < end_ →
      is_valid_addr mem (it + k * mem.page_size) = true) :
    samplesValid mem end_ it count = true := by
  cases hsv : samplesValid mem end_ it count with
  | true => rfl
  | false =>
    exfalso
    obtain ⟨k, hk, hlt, hnv⟩ := (samplesValid_false_iff mem end_ count it).mp hsv
    rw [h k hk hlt] at hnv
    exact Bool.true_eq_false_eq_False hnv

/-- The hex dump `cmd_read_memory` produces on a valid range: `2 * len`
lowercase hex digits of the bytes from `a`. -/
def memHexDump (mem : MemState) (a len : Nat) : List Char :=
  (List.range len).foldl (fun s i => s ++ padLeft 2 (hexRepr (mem.byte (a + i) % 256))) []

theorem readMemBytes_eq (mem : MemState) (a : Nat) (ha0 : a ≠ 0) :
    ∀ len, a + len ≤ 2 ^ 32 →
    readMemBytes mem a len = some (memHexDump mem a len) := by
  intro len
  induction len with
  | zero => intro _; rfl
  | succ n ih =>
    intro hle
    unfold readMemBytes memHexDump at *
    rw [List.range_succ, List.foldl_append, List.foldl_append]
    rw [ih (by omega)]
    have hmod : (a + n) % 2 ^ 32 = a + n := Nat.mod_eq_of_lt (by omega)
    simp only [List.foldl_cons, List.foldl_nil, hmod]
    rw [if_neg (by omega)]

theorem two_mul_sum (len : Nat) : (((List.range len).map (fun _ => 2)).sum) = 2 * len := by
  induction len with
  | zero => rfl
  | succ n ih =>
    rw [List.range_succ, List.map_append, List.sum_append, ih]
    simp
    omega

theorem byteHex_length (v : Nat) : (padLeft 2 (hexRepr (v % 256))).length = 2 := by
  apply padLeft_length
  apply hexRepr_length_le_pow 2 _ (by norm_num)
  have h16 : (16 : Nat) ^ 2 = 256 := by norm_num
  have : v % 256 < 256 := Nat.mod_lt _ (by norm_num)
  omega

theorem memHexDump_length (mem : MemState) (a len : Nat) :
    (memHexDump mem a len).length = 2 * len := by
  unfold memHexDump
  rw [foldl_append_length]
  simp only [byteHex_length, List.length_nil, two_mul_sum]
  omega

theorem hexChar_lower : ∀ m < 16, hexChar m ∈ estr "0123456789abcdef" := by decide

theorem hexCore_chars (fuel : Nat) :
    ∀ (n : Nat), ∀ c ∈ hexCore fuel n [], c ∈ estr "0123456789abcdef" := by
  induction fuel with
  | zero => intro n c hc; simp [hexCore] at hc
  | succ f ih =>
    intro n c hc
    by_cases h : n = 0
    · simp [h, hexCore_zero] at hc
    · rw [hexCore_ne f n [] h, hexCore_append] at hc
      rcases List.mem_append.mp hc with h1 | h1
      · exact ih (n / 16) c h1
      · have : c = hexChar (n % 16) := by simpa using h1
        rw [this]
        exact hexChar_lower (n % 16) (Nat.mod_lt _ (by norm_num))

theorem byteHex_chars (v : Nat) : ∀ c ∈ padLeft 2 (hexRepr v), c ∈ estr "0123456789abcdef" := by
  intro c hc
  rcases List.mem_append.mp hc with h1 | h1
  · rw [List.eq_of_mem_replicate h1]
    decide
  · unfold hexRepr at h1
    by_cases h0 : v = 0
    · rw [if_pos h0] at h1
      rw [show c = '0' from by simpa using h1]
      decide
    · rw [if_neg h0] at h1
      exact hexCore_chars v v c h1

theorem foldl_append_mem (g : Nat → List Char) :
    ∀ (l : List Nat) (init : List Char) (c : Char),
    c ∈ l.foldl (fun s a => s ++ g a) init → c ∈ init ∨ ∃ x ∈ l, c ∈ g x := by
  intro l
  induction l with
  | nil => intro init c h; exact Or.inl h
  | cons a rest ih =>
    intro init c h
    rw [List.foldl_cons] at h
    rcases ih (init ++ g a) c h with h1 | h1
    · rcases List.mem_append.mp h1 with h2 | h2
      · exact Or.inl h2
      · exact Or.inr ⟨a, List.mem_cons_self a rest, h2⟩
    · rcases h1 with ⟨x, hx, hcx⟩
      exact Or.inr ⟨x, List.mem_cons_of_mem a hx, hcx⟩

theorem memHexDump_chars (mem : MemState) (a len : Nat) :
    ∀ c ∈ memHexDump mem a len, c ∈ estr "0123456789abcdef" := by
  intro c hc
  unfold memHexDump at hc
  rcases foldl_append_mem _ _ _ _ hc with h1 | h1
  · simp at h1
  · rcases h1 with ⟨x, _, hcx⟩
    exact byteHex_chars _ c hcx

theorem parse_hex_hexRepr (n : Nat) (h : n < 2 ^ 32) : parse_hex (hexRepr n) = n := by
  unfold parse_hex
  rw [parse_hexRepr]
  exact Nat.mod_eq_of_lt h

/-! ## Claim C4 -/

/-- C4 counterexample: with every page valid (so the range `[0, 4)` touches
only valid pages and is valid in the claim's sense), the command `m0,4`
still replies `EAA`, because `check_memory_region` rejects address 0
unconditionally. -/
theorem mem_read_rejects_address_zero :
    is_valid_addr memTriv 0 = true ∧
      cmd_read_memory (stWith 0 0 []) ContOutcome.dies { content := estr "m0,4" }
        = some (estr "EAA", stWith 0 0 []) :=
  ⟨rfl, rfl⟩

/-- C4 (amended): for an `m a,len` packet (hex-digit fields, no-overflow
range `a + len + page_size ≤ 2 ^ 32`, positive page size), the reply is
`EAA` iff the external range check fails, or `a = 0`, or one of the
addresses `a + k * page_size` sampled by `check_memory_region`'s
page-size-strided loop (only samples below `a + len` are consulted — when
`a` is not page-aligned the final page of the range can go unsampled) lies
on an invalid page.  When none of these hold, the reply is exactly
`2 * len` lowercase hex digits of the bytes starting at `a`. -/
theorem mem_read_eaa_iff (st : EmuState) (w : ContOutcome) (c : PacketCommand) (a len : Nat)
    (hc : c.content = 'm' :: hexRepr a ++ ',' :: hexRepr len)
    (ha : a < 2 ^ 32) (hlen : len < 2 ^ 32)
    (hps : 0 < st.mem.page_size)
    (hnw : a + len + st.mem.page_size ≤ 2 ^ 32) :
    (cmd_read_memory st w c = some (estr "EAA", st) ↔
      (st.mem.range_ok a (a + len) = false ∨ a = 0 ∨
        ∃ k < len, a + k * st.mem.page_size < a + len ∧
          is_valid_addr st.mem (a + k * st.mem.page_size) = false)) ∧
    (st.mem.range_ok a (a + len) = true → a ≠ 0 →
      (∀ k < len, a + k * st.mem.page_size < a + len →
        is_valid_addr st.mem (a + k * st.mem.page_size) = true) →
      cmd_read_memory st w c = some (memHexDump st.mem a len, st) ∧
        (memHexDump st.mem a len).length = 2 * len ∧
        ∀ ch ∈ memHexDump st.mem a len, ch ∈ estr "0123456789abcdef") := by
  have ha8 := hexRepr_length_le a ha
  have hl8 := hexRepr_length_le len hlen
  have hclen : c.content.length = 2 + (hexRepr a).length + (hexRepr len).length := by
    rw [hc]
    simp
    omega
  have hpos : strFind c.content ',' 0 = 1 + (hexRepr a).length := by
    rw [hc]
    exact mAddrLen_find a len
  have hcount : u64sub (1 + (hexRepr a).length) 1 = (hexRepr a).length :=
    (u64sub_small _ _ (by omega) (by omega)).trans (by omega)
  have hfirst : substr? c.content 1 (u64sub (1 + (hexRepr a).length) 1)
      = some (hexRepr a) := by
    rw [hcount]
    unfold substr?
    rw [if_pos (by omega), hc]
    have hdrop : ('m' :: hexRepr a ++ ',' :: hexRepr len).drop 1
        = hexRepr a ++ ',' :: hexRepr len := by simp
    rw [hdrop, List.take_append_of_le_length (le_refl _), List.take_length]
  have hadd : u64add (1 + (hexRepr a).length) 1 = 2 + (hexRepr a).length :=
    (u64add_small _ _ (by omega)).trans (by omega)
  have hsecond : substrFrom? c.content (u64add (1 + (hexRepr a).length) 1)
      = some (hexRepr len) := by
    rw [hadd]
    unfold substrFrom?
    rw [if_pos (by omega), hc]
    have hsplit : 'm' :: hexRepr a ++ ',' :: hexRepr len
        = ('m' :: hexRepr a ++ [',']) ++ hexRepr len := by simp
    have hl1 : ('m' :: hexRepr a ++ [',']).length = 2 + (hexRepr a).length := by
      simp
      omega
    rw [hsplit, ← hl1, List.drop_left]
  have hpa : parse_hex (hexRepr a) = a := parse_hex_hexRepr a ha
  have hpl : parse_hex (hexRepr len) = len := parse_hex_hexRepr len hlen
  have hmod : (a + len) % 2 ^ 32 = a + len := Nat.mod_eq_of_lt (by omega)
  -- reduce cmd_read_memory to its branch structure
  have hbody : cmd_read_memory st w c
      = (if !(st.mem.range_ok a (a + len)) then some (estr "EAA", st)
         else
           match check_memory_region a len st.mem with
           | none => none
           | some false => some (estr "EAA", st)
           | some true =>
             match readMemBytes st.mem a len with
             | none => none
             | some s => some (s, st)) := by
    unfold cmd_read_memory
    dsimp only
    rw [hpos, hfirst, hsecond]
    dsimp only
    rw [hpa, hpl, hmod]
  rw [hbody]
  cases hrq : st.mem.range_ok a (a + len) with
  | false =>
    refine ⟨⟨fun _ => Or.inl rfl, fun _ => ?_⟩, fun h1 => absurd h1 (by simp)⟩
    simp
  | true =>
    rw [if_neg (by simp)]
    by_cases ha0 : a = 0
    · subst ha0
      have hchk : check_memory_region 0 len st.mem = some false := by
        unfold check_memory_region
        rw [if_pos rfl]
      rw [hchk]
      exact ⟨⟨fun _ => Or.inr (Or.inl rfl), fun _ => rfl⟩, fun _ h0 => absurd rfl h0⟩
    · rw [check_memory_region_correct st.mem a len hps hnw ha0]
      cases hsv : samplesValid st.mem (a + len) a len with
      | false =>
        constructor
        · constructor
          · intro _
            exact Or.inr (Or.inr ((samplesValid_false_iff st.mem (a + len) len a).mp hsv))
          · intro _
            rfl
        · intro _ _ hvalid
          exfalso
          obtain ⟨k, hk, hlt, hnv⟩ := (samplesValid_false_iff st.mem (a + len) len a).mp hsv
          rw [hvalid k hk hlt] at hnv
          exact Bool.true_eq_false_eq_False hnv
      | true =>
        rw [readMemBytes_eq st.mem a ha0 len (by omega)]
        constructor
        · constructor
          · intro heq
            simp only [Option.some.injEq, Prod.mk.injEq] at heq
            have hL := congrArg List.length heq.1
            rw [memHexDump_length] at hL
            have h3 : (estr "EAA").length = 3 := rfl
            rw [h3] at hL
            omega
          · rintro (h1 | h1 | h1)
            · exact absurd h1 (by simp)
            · exact absurd h1 ha0
            · have hcontra := (samplesValid_false_iff st.mem (a + len) len a).mpr h1
              rw [hsv] at hcontra
              exact absurd hcontra (by simp)
        · intro _ _ _
          exact ⟨rfl, memHexDump_length st.mem a len, memHexDump_chars st.mem a len⟩

/-- Witness for C4: reading 4 bytes at `0x1000` from the all-valid,
all-zero memory replies `00000000`; and with page 1 marked invalid,
reading 4 bytes at `0x1000` (page 1) replies `EAA`. -/
theorem mem_read_eaa_iff_witness :
    cmd_read_memory (stWith 0 0 []) ContOutcome.dies { content := estr "m1000,4" }
        = some (memHexDump memTriv 0x1000 4, stWith 0 0 []) ∧
      (memHexDump memTriv 0x1000 4).length = 8 :=
  ⟨(((mem_read_eaa_iff (stWith 0 0 []) ContOutcome.dies { content := estr "m1000,4" }
        0x1000 4 (by decide) (by decide) (by decide) (by decide) (by decide)).2
      rfl (by decide) (fun k hk _ => rfl)).1),
   (((mem_read_eaa_iff (stWith 0 0 []) ContOutcome.dies { content := estr "m1000,4" }
        0x1000 4 (by decide) (by decide) (by decide) (by decide) (by decide)).2
      rfl (by decide) (fun k hk _ => rfl)).2.1)⟩

/-! ## Claim C1 -/

/-- The first-supported-action scan, stated from the amended claim's words:
walk the `;`-separated actions in order, SKIP actions whose letter is not
`c`/`C`/`s`/`S`, and act on the first supported one; an exhausted list
replies empty. -/
def vContFirstSupported (st : EmuState) (w : ContOutcome) :
    List (List Char) → Option (List Char × EmuState)
  | [] => some ([], st)
  | a :: rest =>
    let cmd := a.headD (Char.ofNat 0)
    if cmd == 'c' || cmd == 'C' || cmd == 's' || cmd == 'S' then
      vContAct st w (cmd == 's' || cmd == 'S')
    else vContFirstSupported st w rest

/-- A well-formed `vCont` body: `"vCont"` followed by `;`-prefixed actions. -/
def mkVContBody (acts : List (List Char)) : List Char :=
  estr "vCont" ++ acts.foldr (fun a r => ';' :: a ++ r) []

theorem vContLoop_eq_scan :
    ∀ (acts : List (List Char)) (st : EmuState) (w : ContOutcome)
      (content : List Char) (index : Nat),
    (∀ a ∈ acts, ';' ∉ a) →
    content.drop index = acts.foldr (fun a r => ';' :: a ++ r) [] →
    acts ≠ [] →
    content.length + 2 < 2 ^ 64 →
    ∀ fuel, content.length ≤ index + fuel →
    vContLoop st w content index fuel = vContFirstSupported st w acts := by
  intro acts
  induction acts with
  | nil => intro _ _ _ _ _ _ hne; exact absurd rfl hne
  | cons a0 rest ih =>
    intro st w content index hsemi hdrop _ hbig fuel hfuel
    have hnsemi0 : ';' ∉ a0 := hsemi a0 (List.mem_cons_self a0 rest)
    have hdlen := congrArg List.length hdrop
    rw [List.length_drop] at hdlen
    have hidx : index < content.length := by
      simp at hdlen
      omega
    cases fuel with
    | zero => omega
    | succ f =>
      have hdrop1 : content.drop (index + 1)
          = a0 ++ rest.foldr (fun a r => ';' :: a ++ r) [] := by
        have h1 : content.drop (index + 1) = (content.drop index).drop 1 := by
          rw [List.drop_drop]
        rw [h1, hdrop]
        simp
      rw [vContLoop]
      cases rest with
      | nil =>
        have hfind : strFind content ';' (index + 1) = npos := by
          unfold strFind
          rw [hdrop1]
          simp only [List.foldr_nil, List.append_nil]
          rw [findIdx?_none_of _ a0 (fun c hc => by
            cases hcc : (c == ';') with
            | false => rfl
            | true => exact absurd (by simpa using hcc : c = ';') (fun h => hnsemi0 (h ▸ hc)))]
        rw [hfind]
        have ha0len : content.length = index + 1 + a0.length := by
          have := congrArg List.length hdrop1
          rw [List.length_drop] at this
          simp at this
          omega
        have hcnt : u64sub (u64sub npos index) 1 = npos - index - 1 := by
          rw [u64sub_small npos index (by unfold npos; omega) (by unfold npos; omega),
              u64sub_small _ _ (by unfold npos; omega) (by unfold npos; omega)]
        have hsub : substr? content (index + 1) (u64sub (u64sub npos index) 1)
            = some a0 := by
          rw [hcnt]
          unfold substr?
          rw [if_pos (by omega), hdrop1]
          simp only [List.foldr_nil, List.append_nil]
          exact congrArg some (List.take_of_length_le (by unfold npos; omega))
        rw [hsub]
        dsimp only
        unfold vContFirstSupported
        by_cases hsup : (a0.headD (Char.ofNat 0) == 'c' || a0.headD (Char.ofNat 0) == 'C'
            || a0.headD (Char.ofNat 0) == 's' || a0.headD (Char.ofNat 0) == 'S') = true
        · rw [if_pos hsup, if_pos hsup]
        · rw [if_neg hsup, if_neg hsup, if_pos rfl]
          rfl
      | cons r1 rest2 =>
        have hdrop1' : content.drop (index + 1)
            = a0 ++ ';' :: (r1 ++ rest2.foldr (fun a r => ';' :: a ++ r) []) := by
          rw [hdrop1]
          simp
        have hfind : strFind content ';' (index + 1) = index + 1 + a0.length := by
          unfold strFind
          rw [hdrop1']
          rw [findIdx?_append_left _ a0 _ (fun c hc => by
            cases hcc : (c == ';') with
            | false => rfl
            | true => exact absurd (by simpa using hcc : c = ';') (fun h => hnsemi0 (h ▸ hc)))]
          rw [List.findIdx?_cons]
          simp
          all_goals omega
        rw [hfind]
        have hnextlt : index + 1 + a0.length < content.length := by
          have := congrArg List.length hdrop1'
          rw [List.length_drop] at this
          simp at this
          omega
        have hcnt : u64sub (u64sub (index + 1 + a0.length) index) 1 = a0.length := by
          rw [u64sub_small (index + 1 + a0.length) index (by omega) (by omega),
              u64sub_small (index + 1 + a0.length - index) 1 (by omega) (by omega)]
          omega
        have hsub : substr? content (index + 1) (u64sub (u64sub (index + 1 + a0.length) index) 1)
            = some a0 := by
          rw [hcnt]
          unfold substr?
          rw [if_pos (by omega), hdrop1']
          rw [List.take_append_of_le_length (le_refl _), List.take_length]
        rw [hsub]
        dsimp only
        unfold vContFirstSupported
        by_cases hsup : (a0.headD (Char.ofNat 0) == 'c' || a0.headD (Char.ofNat 0) == 'C'
            || a0.headD (Char.ofNat 0) == 's' || a0.headD (Char.ofNat 0) == 'S') = true
        · rw [if_pos hsup, if_pos hsup]
        · rw [if_neg hsup, if_neg hsup,
            if_neg (by unfold npos; omega : ¬(index + 1 + a0.length = npos))]
          apply ih st w content (index + 1 + a0.length)
            (fun x hx => hsemi x (List.mem_cons_of_mem a0 hx))
          · have hdd : content.drop (index + 1 + a0.length)
                = (content.drop (index + 1)).drop a0.length := by
              rw [List.drop_drop]
              all_goals try congr 1
              all_goals omega
            rw [hdd, hdrop1']
            simp
          · simp
          · exact hbig
          · omega

/-- C1 counterexample: trailing actions are NOT ignored.  With one thread
`7` suspended on a breakpoint, the body `vCont;t;c` — whose FIRST action is
the unsupported `t` — acts on the TRAILING `c` action and replies `S05`
(updating `current_thread`), whereas `vCont;t` alone replies empty. -/
theorem vcont_honors_trailing_action :
    cmd_continue (stWith 0 0 [(7, thZero)]) (ContOutcome.breaks 7)
        { content := estr "vCont;t" }
      = some ([], stWith 0 0 [(7, thZero)]) ∧
    cmd_continue (stWith 0 0 [(7, thZero)]) (ContOutcome.breaks 7)
        { content := estr "vCont;t;c" }
      = some (estr "S05",
          { stWith 0 0 [(7, thZero)] with
            gdb := { (stWith 0 0 [(7, thZero)]).gdb with
              inferior_thread := 7, current_thread := 7 } }) :=
  ⟨rfl, rfl⟩

/-- C1 (amended): `cmd_continue` scans the `;`-separated actions in order
and acts on the FIRST action whose letter is `c`, `C`, `s` or `S`,
skipping unsupported actions rather than stopping at them, and ignoring
everything after the one it acts on.  For the action it takes (when
`inferior_thread` is 0 or still in the thread table): a step action
replies `S05` after setting `current_thread = inferior_thread`; a
continue action either observes `server_die` and replies empty leaving
`current_thread` untouched, or records the breaking thread `tid` as
`inferior_thread`, sets `current_thread = tid`, and replies `S05`. -/
theorem vcont_first_supported_action (st : EmuState) (w : ContOutcome) :
    (∀ (c : PacketCommand) (acts : List (List Char)),
      (∀ a ∈ acts, ';' ∉ a) → acts ≠ [] →
      c.content = mkVContBody acts →
      c.content.length + 2 < 2 ^ 64 →
      cmd_continue st w c = vContFirstSupported st w acts) ∧
    (st.gdb.inferior_thread = 0 ∨ (threadsGet? st.kernel st.gdb.inferior_thread).isSome →
      (vContAct st w true
        = some (estr "S05",
            { st with gdb := { st.gdb with current_thread := st.gdb.inferior_thread } })) ∧
      (∀ tid th, w = ContOutcome.breaks tid → threadsGet? st.kernel tid = some th →
        vContAct st w false
          = some (estr "S05",
              { st with gdb := { st.gdb with inferior_thread := tid, current_thread := tid } })) ∧
      (w = ContOutcome.dies →
        vContAct st w false
          = some ([], { st with gdb := { st.gdb with server_die := true } }))) := by
  constructor
  · intro c acts hsemi hne hcontent hbig
    unfold cmd_continue
    apply vContLoop_eq_scan acts st w c.content 5 hsemi ?_ hne hbig (c.content.length + 1)
      (by omega)
    rw [hcontent]
    unfold mkVContBody
    rw [show (5 : Nat) = (estr "vCont").length from rfl]
    exact List.drop_left _ _
  · intro hpres
    have hguard : (st.gdb.inferior_thread != 0
        && (threadsGet? st.kernel st.gdb.inferior_thread).isNone) = false := by
      rcases hpres with h | h
      · simp [h]
      · have hn : (threadsGet? st.kernel st.gdb.inferior_thread).isNone = false := by
          cases hh : threadsGet? st.kernel st.gdb.inferior_thread
          · rw [hh] at h
            simp at h
          · rfl
        simp [hn]
    refine ⟨?_, ?_, ?_⟩
    · unfold vContAct
      rw [hguard]
      simp
    · intro tid th hw hsome
      subst hw
      unfold vContAct
      rw [hguard]
      simp [hsome]
    · intro hw
      subst hw
      unfold vContAct
      rw [hguard]
      simp

/-- Witness for C1 with the action list `["c"]` and a break on thread 7. -/
theorem vcont_first_supported_action_witness :
    cmd_continue (stWith 0 0 [(7, thZero)]) (ContOutcome.breaks 7)
        { content := mkVContBody [estr "c"] }
      = vContFirstSupported (stWith 0 0 [(7, thZero)]) (ContOutcome.breaks 7) [estr "c"] ∧
    vContAct (stWith 0 0 [(7, thZero)]) (ContOutcome.breaks 7) true
      = some (estr "S05",
          { stWith 0 0 [(7, thZero)] with
            gdb := { (stWith 0 0 [(7, thZero)]).gdb with current_thread := 0 } }) :=
  ⟨(vcont_first_supported_action (stWith 0 0 [(7, thZero)]) (ContOutcome.breaks 7)).1
      { content := mkVContBody [estr "c"] } [estr "c"]
      (by decide) (by decide) rfl (by decide),
   ((vcont_first_supported_action (stWith 0 0 [(7, thZero)]) (ContOutcome.breaks 7)).2
      (Or.inl rfl)).1⟩

/-! ## Claim C2 -/

theorem processBuffer_past_end (st : EmuState) (w : ContOutcome) (buf : List Char)
    (pos fuel : Nat) (hge : buf.length ≤ pos) (hf : 0 < fuel) :
    processBuffer st w buf pos fuel = ([], some (st, pos)) := by
  cases fuel with
  | zero => omega
  | succ f =>
    rw [processBuffer]
    rw [dif_neg (by omega)]

/-- The hash scan on a buffer holding exactly one complete frame finds the
frame's own `'#'`. -/
theorem findHash_one_frame (body : List Char) (d1 d2 : Char) (hnh : '#' ∉ body) :
    findHash ('$' :: body ++ '#' :: [d1, d2]) 0 = some (body.length + 1) := by
  unfold findHash
  have hdrop : ('$' :: body ++ '#' :: [d1, d2]).drop 1 = body ++ '#' :: [d1, d2] := by simp
  have hlen : ('$' :: body ++ '#' :: [d1, d2]).length = body.length + 4 := by simp
  rw [hdrop, hlen]
  have htake : (body ++ '#' :: [d1, d2]).take (body.length + 4 - 3)
      = body ++ ['#'] := by
    have h1 : body.length + 4 - 3 = body.length + 1 := by omega
    rw [h1, List.take_append]
    rfl
  rw [htake]
  rw [findIdx?_append_left _ body _ (fun c hc => by
    cases hcc : (c == '#') with
    | false => rfl
    | true => exact absurd (by simpa using hcc : c = '#') (fun h => hnh (h ▸ hc)))]
  rw [List.findIdx?_cons]
  simp
  all_goals omega

/-- The output bytes of `processBuffer` on a buffer holding exactly one
complete frame, by case on checksum validity, dispatch, and the handler's
outcome. -/
theorem processBuffer_one_frame_out (st : EmuState) (w : ContOutcome)
    (body : List Char) (d1 d2 : Char) (hnh : '#' ∉ body) :
    (processBuffer st w ('$' :: body ++ '#' :: [d1, d2]) 0
        (('$' :: body ++ '#' :: [d1, d2]).length + 1)).1
      = (if (parse_command ('$' :: body ++ '#' :: [d1, d2])).is_valid then
          match dispatch? (parse_command ('$' :: body ++ '#' :: [d1, d2])) with
          | some fn =>
            match fn st w (parse_command ('$' :: body ++ '#' :: [d1, d2])) with
            | none => ['+']
            | some (reply, st1) =>
              if st1.gdb.server_die then ['+'] else '+' :: frameBytes reply
          | none => '+' :: frameBytes []
        else ['+', '-']) := by
  have hlen : ('$' :: body ++ '#' :: [d1, d2]).length = body.length + 4 := by simp
  rw [processBuffer]
  rw [dif_pos (by omega)]
  have hget : ('$' :: body ++ '#' :: [d1, d2]).get ⟨0, by omega⟩ = '$' := rfl
  rw [hget]
  simp only [show (('$' : Char) == '+') = false from rfl,
    show (('$' : Char) == '-') = false from rfl,
    show (('$' : Char) == '$') = true from rfl,
    Bool.false_eq_true, if_false, if_true]
  rw [findHash_one_frame body d1 d2 hnh]
  dsimp only
  rw [if_neg (by omega)]
  have hslice : (('$' :: body ++ '#' :: [d1, d2]).drop 0).take (body.length + 1 + 3 - 0)
      = '$' :: body ++ '#' :: [d1, d2] := by
    rw [List.drop_zero, show body.length + 1 + 3 - 0 = body.length + 4 from by omega, ← hlen,
      List.take_length]
  rw [hslice]
  have hpast4 : ∀ st2 : EmuState,
      processBuffer st2 w ('$' :: body ++ '#' :: [d1, d2]) (body.length + 1 + 3)
        (body.length + 3 + 1)
      = ([], some (st2, body.length + 1 + 3)) := by
    intro st2
    apply processBuffer_past_end
    · rw [hlen]
    · omega
  have hpast4' : ∀ st2 : EmuState,
      processBuffer st2 w ('$' :: (body ++ ['#', d1, d2])) (body.length + 1 + 3)
        (body.length + 3 + 1)
      = ([], some (st2, body.length + 1 + 3)) := hpast4
  repeat' split
  all_goals simp only [hpast4]
  all_goals simp [hpast4']

/-- C2 counterexample: the kill packet `$k#6b` is a complete, accepted
frame; the server emits the `'+'` acknowledgement and then — because
`cmd_die` sets `server_die` — NO reply frame at all: the bytes after `'+'`
do not begin a `'$'`-framed reply. -/
theorem kill_packet_acked_but_unanswered :
    (parse_command (estr "$k#6b")).is_valid = true ∧
      (processBuffer (stWith 3 0 []) ContOutcome.dies (estr "$k#6b") 0
          ((estr "$k#6b").length + 1)).1 = ['+'] :=
  ⟨rfl, rfl⟩

/-- C2 (amended): for a buffer holding one complete inbound frame, the
first outgoing byte is `'+'`, transmitted before parsing and regardless of
checksum validity (an invalid checksum gets exactly `"+-"`); and for an
accepted packet whose handler completes normally WITHOUT setting
`server_die`, the bytes after the `'+'` are exactly the `'$'`-framed
reply.  (A handler that sets `server_die`, such as `k`, leaves only the
bare `'+'`.) -/
theorem ack_before_reply (st : EmuState) (w : ContOutcome)
    (body : List Char) (d1 d2 : Char) (hnh : '#' ∉ body) :
    ((processBuffer st w ('$' :: body ++ '#' :: [d1, d2]) 0
        (('$' :: body ++ '#' :: [d1, d2]).length + 1)).1.head? = some '+') ∧
    ((parse_command ('$' :: body ++ '#' :: [d1, d2])).is_valid = false →
      (processBuffer st w ('$' :: body ++ '#' :: [d1, d2]) 0
          (('$' :: body ++ '#' :: [d1, d2]).length + 1)).1 = ['+', '-']) ∧
    ((parse_command ('$' :: body ++ '#' :: [d1, d2])).is_valid = true →
      ∀ fn reply st1,
        dispatch? (parse_command ('$' :: body ++ '#' :: [d1, d2])) = some fn →
        fn st w (parse_command ('$' :: body ++ '#' :: [d1, d2])) = some (reply, st1) →
        st1.gdb.server_die = false →
        (processBuffer st w ('$' :: body ++ '#' :: [d1, d2]) 0
            (('$' :: body ++ '#' :: [d1, d2]).length + 1)).1
          = '+' :: frameBytes reply) := by
  have hout := processBuffer_one_frame_out st w body d1 d2 hnh
  refine ⟨?_, ?_, ?_⟩
  · rw [hout]
    repeat' split
    all_goals rfl
  · intro hvalid
    rw [hout, hvalid]
    simp
  · intro hvalid fn reply st1 hdisp hfn hdie
    rw [hout, if_pos hvalid]
    simp only [List.cons_append] at hdisp hfn
    simp [hdisp, hfn, hdie]

/-! ## Claim C5 -/

/-- A handler that keeps an already-set `server_die` flag set. -/
def DiePreserving (f : Handler) : Prop :=
  ∀ st w c r st1, st.gdb.server_die = true → f st w c = some (r, st1) →
    st1.gdb.server_die = true

theorem vContAct_die (st : EmuState) (w : ContOutcome) (step : Bool)
    (r : List Char) (st1 : EmuState) (hd : st.gdb.server_die = true)
    (hf : vContAct st w step = some (r, st1)) : st1.gdb.server_die = true := by
  unfold vContAct at hf
  repeat' split at hf
  all_goals try exact Option.noConfusion hf
  all_goals simp only [Option.some.injEq, Prod.mk.injEq] at hf
  all_goals obtain ⟨-, h2⟩ := hf
  all_goals subst h2
  all_goals first
    | exact hd
    | rfl

theorem vContLoop_die (st : EmuState) (w : ContOutcome) (content : List Char) :
    ∀ (fuel index : Nat) (r : List Char) (st1 : EmuState),
      st.gdb.server_die = true →
      vContLoop st w content index fuel = some (r, st1) →
      st1.gdb.server_die = true := by
  intro fuel
  induction fuel with
  | zero => intro index r st1 _ hf; exact Option.noConfusion hf
  | succ f ih =>
    intro index r st1 hd hf
    rw [vContLoop] at hf
    dsimp only at hf
    repeat' split at hf
    all_goals first
      | exact Option.noConfusion hf
      | exact vContAct_die _ _ _ _ _ hd hf
      | (simp only [Option.some.injEq, Prod.mk.injEq] at hf
         exact hf.2 ▸ hd)
      | exact ih _ _ _ hd hf

/-- Every handler bound in the dispatch table keeps an already-set
`server_die` flag set (only `cmd_die` writes the flag, and it writes
`true`). -/
theorem handlers_preserve_die : ∀ p ∈ dispatchTable, DiePreserving p.2 := by
  intro p hp
  fin_cases hp
  all_goals dsimp only [DiePreserving]
  all_goals intro st w c r st1 hd hf
  all_goals simp only [cmd_unimplemented, cmd_reason, cmd_set_current_thread,
    cmd_thread_alive, cmd_read_register, cmd_write_register, cmd_read_registers,
    cmd_write_registers, cmd_read_memory, cmd_write_memory, cmd_get_first_thread,
    cmd_get_next_thread, cmd_supported, cmd_attached, cmd_thread_status,
    cmd_get_current_thread, cmd_die, cmd_continue_supported, cmd_continue,
    cmd_kill, cmd_reply_empty, cmd_remove_breakpoint, cmd_add_breakpoint,
    cmd_deprecated] at hf
  all_goals first
    | exact vContLoop_die st w c.content (c.content.length + 1) 5 r st1 hd hf
    | (repeat' split at hf
       all_goals try exact Option.noConfusion hf
       all_goals simp only [Option.some.injEq, Prod.mk.injEq] at hf
       all_goals obtain ⟨-, h2⟩ := hf
       all_goals subst h2
       all_goals first
         | exact hd
         | rfl)

theorem dispatch?_preserves_die (c : PacketCommand) (fn : Handler)
    (h : dispatch? c = some fn) : DiePreserving fn := by
  unfold dispatch? at h
  cases hfind : dispatchTable.find? (fun e => command_begins_with c e.1) with
  | none => rw [hfind] at h; exact Option.noConfusion h
  | some e =>
    rw [hfind] at h
    simp only [Option.map_some', Option.some.injEq] at h
    exact h ▸ handlers_preserve_die e (List.mem_of_find?_eq_some hfind)

/-- A sample state with the die flag already set. -/
def stDie : EmuState :=
  { stWith 3 0 [] with gdb := { (stWith 3 0 []).gdb with server_die := true } }

/-- C5 counterexample: from a live state, the buffer `$k#6b$qC#b4` holds
the kill packet followed by an already-buffered `qC` packet.  `cmd_die`
sets `server_die`, yet the second packet still elicits an outgoing `'+'`
acknowledgement after the flag became true: the output is `['+', '+']`,
not `['+']`. -/
theorem buffered_packet_acked_after_die :
    (stWith 3 0 []).gdb.server_die = false ∧
    cmd_die (stWith 3 0 []) ContOutcome.dies (parse_command (estr "$k#6b"))
      = some ([],
          { stWith 3 0 [] with
            gdb := { (stWith 3 0 []).gdb with server_die := true } }) ∧
    (processBuffer (stWith 3 0 []) ContOutcome.dies (estr "$k#6b$qC#b4") 0
        ((estr "$k#6b$qC#b4").length + 1)).1 = ['+', '+'] :=
  ⟨rfl, rfl, rfl⟩

/-- C5 (amended): `server_die = true` ends the session loop — a
`server_next` call entered with the flag set returns `-1` before any
receive or send, so no bytes at all are produced; `cmd_die` (packet `k`)
sets the flag with an empty suppressed reply; every table handler keeps an
already-set flag set; and a complete, accepted, dispatched frame processed
with the flag already set produces ONLY the `'+'` acknowledgement and no
reply frame.  However the flag is NOT terminal within the `server_next`
call in which it is set: packets already buffered behind the one that set
the flag are still acknowledged (see the counterexample). -/
theorem server_die_terminal_amended :
    (∀ (st : EmuState) (w : ContOutcome) (b i : List Char),
      st.gdb.server_die = true → server_next st w b i = ([], none)) ∧
    (∀ (st : EmuState) (w : ContOutcome) (c : PacketCommand),
      cmd_die st w c
        = some ([], { st with gdb := { st.gdb with server_die := true } })) ∧
    (∀ p ∈ dispatchTable, DiePreserving p.2) ∧
    (∀ (st : EmuState) (w : ContOutcome) (body : List Char) (d1 d2 : Char),
      '#' ∉ body → st.gdb.server_die = true →
      (parse_command ('$' :: body ++ '#' :: [d1, d2])).is_valid = true →
      ∀ fn reply st1,
        dispatch? (parse_command ('$' :: body ++ '#' :: [d1, d2])) = some fn →
        fn st w (parse_command ('$' :: body ++ '#' :: [d1, d2])) = some (reply, st1) →
        (processBuffer st w ('$' :: body ++ '#' :: [d1, d2]) 0
            (('$' :: body ++ '#' :: [d1, d2]).length + 1)).1 = ['+']) := by
  refine ⟨?_, ?_, handlers_preserve_die, ?_⟩
  · intro st w b i hd
    unfold server_next
    rw [if_pos hd]
  · intro st w c
    rfl
  · intro st w body d1 d2 hnh hd hvalid fn reply st1 hdisp hfn
    have hd1 : st1.gdb.server_die = true :=
      dispatch?_preserves_die _ fn hdisp st w _ reply st1 hd hfn
    have hout := processBuffer_one_frame_out st w body d1 d2 hnh
    rw [hout, if_pos hvalid]
    simp only [List.cons_append] at hdisp hfn
    simp [hdisp, hfn, hd1]

/-- Witness for C5: the state `stDie` has the flag set; a `server_next`
call from it sends nothing, and processing a complete buffered
`$qAttached#8f` frame from it yields only the bare `'+'`. -/
theorem server_die_terminal_amended_witness :
    server_next stDie ContOutcome.dies [] (estr "$qAttached#8f") = ([], none) ∧
    (processBuffer stDie ContOutcome.dies ('$' :: estr "qAttached" ++ '#' :: ['8', 'f']) 0
        (('$' :: estr "qAttached" ++ '#' :: ['8', 'f']).length + 1)).1 = ['+'] :=
  ⟨server_die_terminal_amended.1 stDie ContOutcome.dies [] (estr "$qAttached#8f") rfl,
   server_die_terminal_amended.2.2.2 stDie ContOutcome.dies (estr "qAttached") '8' 'f'
     (by decide) rfl rfl cmd_attached (estr "1") stDie rfl rfl⟩

/-- Witness for C2 with `$qAttached#8f`: full outgoing bytes are `'+'`
followed by the framed reply `$1#31`. -/
theorem ack_before_reply_witness :
    (processBuffer (stWith 3 0 []) ContOutcome.dies
        ('$' :: estr "qAttached" ++ '#' :: ['8', 'f']) 0
        (('$' :: estr "qAttached" ++ '#' :: ['8', 'f']).length + 1)).1
      = '+' :: frameBytes (estr "1") :=
  (ack_before_reply (stWith 3 0 []) ContOutcome.dies (estr "qAttached") '8' 'f'
      (by decide)).2.2 rfl cmd_attached (estr "1") (stWith 3 0 []) rfl rfl rfl

end Gdb
